import Mathlib

set_option maxRecDepth 10000

/-!
# Verification of the OCR token-extraction pipeline (`internal/tess/ocr.py`)

This file shallowly embeds the pure algorithmic core of the pipeline:
text sanitization and normalization, the pattern/result scoring heuristics,
the bounded Levenshtein distance, alignment and position voting, the
consensus selection, ROI prioritization, quadrilateral ordering, the
gamma-LUT cache discipline, and the frame driver's result emission.

Modelling conventions:
* Python strings are `List Char`; `len`, slicing and `in` are the evident
  list operations.  Character classification (`isdigit`, `isalnum`,
  `str.strip`) is modelled at ASCII level, which is exact for every string
  the pipeline manipulates (all text is filtered to an ASCII allowlist).
* Python float arithmetic is modelled as exact rational arithmetic.  All
  quantities involved are small dyadic/decimal rationals, where rounding
  never flips any comparison made by the code.  We use a bespoke fraction
  type `Frac` (integer numerator, positive integer denominator, without
  normalization) because its operations reduce inside the Lean kernel,
  so that concrete runs of the pipeline can be checked by `decide`;
  `Frac.toQ` interprets it into `ℚ` and is a homomorphism for every
  operation used, so specification-level statements are phrased over `ℚ`.
* Mutation of Python locals is modelled by rebinding; the gamma-LUT cache
  (the only cross-call state) is threaded explicitly.
-/

/-- An executable rational number: `num / den` with `0 < den`, not
necessarily in lowest terms.  Used to model the Python code's float
arithmetic exactly. -/
structure Frac where
  num : Int
  den : Int
  den_pos : 0 < den

namespace Frac

def add (a b : Frac) : Frac :=
  ⟨a.num * b.den + b.num * a.den, a.den * b.den, mul_pos a.den_pos b.den_pos⟩

def neg (a : Frac) : Frac := ⟨-a.num, a.den, a.den_pos⟩

def mul (a b : Frac) : Frac :=
  ⟨a.num * b.num, a.den * b.den, mul_pos a.den_pos b.den_pos⟩

instance : Add Frac := ⟨add⟩
instance : Neg Frac := ⟨neg⟩
instance : Mul Frac := ⟨mul⟩
instance : Sub Frac := ⟨fun a b => a + -b⟩

instance (n : Nat) : OfNat Frac n := ⟨⟨(n : Int), 1, Int.one_pos⟩⟩

instance : NatCast Frac := ⟨fun n => ⟨(n : Int), 1, Int.one_pos⟩⟩

instance : OfScientific Frac :=
  ⟨fun m b e =>
    if b then ⟨(m : Int), (10 : Int) ^ e, pow_pos (by norm_num) e⟩
    else ⟨(m : Int) * (10 : Int) ^ e, 1, Int.one_pos⟩⟩

/-- `a ≤ b`, decided by cross-multiplication (denominators are positive). -/
def ble (a b : Frac) : Bool := decide (a.num * b.den ≤ b.num * a.den)

/-- `a < b`, decided by cross-multiplication. -/
def blt (a b : Frac) : Bool := decide (a.num * b.den < b.num * a.den)

/-- Value equality (representations are not normalized). -/
def beq (a b : Frac) : Bool := decide (a.num * b.den = b.num * a.den)

/-- Python `min(a, b)` (returns the first argument on ties). -/
def fmin (a b : Frac) : Frac := if ble a b then a else b

/-- Python `max(a, b)` (returns the first argument on ties). -/
def fmax (a b : Frac) : Frac := if ble b a then a else b

/-- Interpretation into `ℚ`. -/
def toQ (a : Frac) : ℚ := (a.num : ℚ) / (a.den : ℚ)

end Frac

/-! ## Character classification and basic string helpers

Python's `"A" <= ch <= "Z"` comparisons and ASCII `isdigit`/`isalnum`
(the pipeline's alphabet is the ASCII `ALLOWLIST`). -/

def isUpperAZ (c : Char) : Bool := decide ('A' ≤ c) && decide (c ≤ 'Z')

def isLowerAZ (c : Char) : Bool := decide ('a' ≤ c) && decide (c ≤ 'z')

def isDigit09 (c : Char) : Bool := decide ('0' ≤ c) && decide (c ≤ '9')

/-- Python `ch.isalnum()` restricted to ASCII. -/
def isAlnumPy (c : Char) : Bool := isUpperAZ c || isLowerAZ c || isDigit09 c

/-- Python's default `str.strip` whitespace set (ASCII part). -/
def pyIsSpace (c : Char) : Bool :=
  decide (c = ' ') || decide (c = '\t') || decide (c = '\n') ||
  decide (c = '\x0b') || decide (c = '\x0c') || decide (c = '\r')

/-- Python `text.strip()`. -/
def pyStrip (s : List Char) : List Char :=
  ((s.dropWhile pyIsSpace).reverse.dropWhile pyIsSpace).reverse

/-- Python `text.index(c)`: first index of `c` (only used when `c ∈ text`). -/
def pyIndex : List Char → Char → Nat
  | [], _ => 0
  | x :: xs, c => if x = c then 0 else pyIndex xs c + 1

/-- Python `text.rindex(c)`: last index of `c` (only used when `c ∈ text`). -/
def pyRindex (t : List Char) (c : Char) : Nat :=
  t.length - 1 - pyIndex t.reverse c

/-- `ALLOWLIST` from `ocr.py` (module default; the custom override is out of
scope for the claims considered here). -/
def ALLOWLIST : List Char :=
  String.toList "ABCDEFGHIJKLMNOPQRSTUVWXYZabcdefghijklmnopqrstuvwxyz0123456789!@#$%&*+-=._?"

/-- `sanitize_text`: keep only allowlisted characters. -/
def sanitize_text (text : List Char) : List Char :=
  if text = [] then []
  else text.filter (fun ch => decide (ch ∈ ALLOWLIST))

/-- `pattern_score`: heuristic plausibility of a string as the target token. -/
def pattern_score (text : List Char) : Frac :=
  if text = [] then -999.0
  else
    let l := text.length
    let upp := text.countP isUpperAZ
    let low := text.countP isLowerAZ
    let dig := text.countP isDigit09
    let sym := text.countP (fun ch => ! isAlnumPy ch)
    (if 3 ≤ upp + low then (1.6 : Frac) else 0) +
    (if 2 ≤ dig then (1.2 : Frac) else 0) +
    (if 2 ≤ sym then (1.5 : Frac) else 0) +
    (if '@' ∈ text then (0.8 : Frac) else 0) +
    (if '_' ∈ text then (0.7 : Frac) else 0) +
    (if '@' ∈ text ∧ '_' ∈ text ∧ pyIndex text '@' < pyRindex text '_' then
      (2.1 : Frac) else 0) +
    (if '?' ∈ text then (0.5 : Frac) else 0) +
    (if 12 ≤ l ∧ l ≤ 18 then (2.8 : Frac)
     else if 18 < l then -(((l : Frac) - 18) * 1.9)
     else if l < 8 then -(((8 : Frac) - (l : Frac)) * 1.5)
     else 0)

/-! ## Detections and the Scorer -/

/-- One detection returned by the recognition engine:
`(quadrilateral bbox, text, confidence)`. -/
structure Detection where
  bbox : List (Frac × Frac)
  text : List Char
  conf : Frac

/-- Exact division (`b` is nonzero at every call site in the pipeline;
division by a zero value is given the junk result `0`). -/
def Frac.div (a b : Frac) : Frac :=
  if h : 0 < b.num then ⟨a.num * b.den, a.den * b.num, mul_pos a.den_pos h⟩
  else if h' : b.num < 0 then
    ⟨-(a.num * b.den), a.den * (-b.num), mul_pos a.den_pos (neg_pos.mpr h')⟩
  else ⟨0, 1, Int.one_pos⟩

instance : Div Frac := ⟨Frac.div⟩

/-- `candidate_confidence`: length-weighted mean of detection confidences
over non-empty trimmed texts, `0` if none. -/
def candidate_confidence (results : List Detection) : Frac :=
  let wt := results.foldl
    (fun (acc : Frac × Frac) d =>
      let t := pyStrip d.text
      if t = [] then acc
      else (acc.1 + d.conf * ((max 1 t.length : Nat) : Frac),
            acc.2 + ((max 1 t.length : Nat) : Frac)))
    (0.0, 0.0)
  if Frac.ble wt.2 0.0 then 0.0 else wt.1 / wt.2

/-- `has_strong_result`: some detection with confidence `≥ 0.50` and trimmed
length `≥ 2`. -/
def has_strong_result (results : List Detection) : Bool :=
  results.any (fun d => Frac.ble 0.50 d.conf && decide (2 ≤ (pyStrip d.text).length))

/-- `is_good_candidate`. -/
def is_good_candidate (results : List Detection) (combined : List Char) : Bool :=
  if combined = [] then false
  else
    let conf := candidate_confidence results
    if Frac.ble 0.65 conf && decide (14 ≤ combined.length) then true
    else if has_strong_result results && decide (14 ≤ combined.length) then true
    else false

/-- `score_result`: base score of one `(detections, combined text)` candidate. -/
def score_result (results : List Detection) (combined : List Char) : Frac :=
  if combined = [] then 0.0
  else
    let avg_conf := (results.foldl (fun s d => s + d.conf) 0.0) /
      ((max 1 results.length : Nat) : Frac)
    let symbol_count := combined.countP (fun ch => ! isAlnumPy ch)
    let symbol_bonus := Frac.fmin 2.6 (((symbol_count : Nat) : Frac) * 0.45)
    let symbol_bonus :=
      if 18 < combined.length then
        symbol_bonus - (((combined.length : Frac) - 18) * 2.1)
      else symbol_bonus
    let triples := (combined.zip ((combined.drop 1).zip (combined.drop 2))).countP
      (fun t => ! isAlnumPy t.1 && isDigit09 t.2.1 && ! isAlnumPy t.2.2)
    let tail_digits := (combined.reverse.takeWhile isDigit09).length
    let penalty := ((triples : Nat) : Frac) * 1.6 +
      (if 2 ≤ tail_digits then (((tail_digits - 1 : Nat)) : Frac) * 1.35 else 0.0)
    ((combined.length : Nat) : Frac) * 1.6 + avg_conf * 4.0 + symbol_bonus - penalty

/-! ## `best_text_window` -/

/-- The `length_prior` helper nested in `best_text_window`. -/
def length_prior (l : Nat) : Frac :=
  if 14 ≤ l ∧ l ≤ 18 then 1.8
  else if 18 < l then 1.8 - ((l : Frac) - 18) * 1.2
  else 1.8 - ((14 : Frac) - (l : Frac)) * 0.5

/-- Condition for the trailing-isolated-digit penalty:
`len(sub) >= 2 and sub[-1].isdigit() and not sub[-2].isdigit()`. -/
def trailingIsolatedDigit (sub : List Char) : Bool :=
  match sub.reverse with
  | c1 :: c2 :: _ => isDigit09 c1 && ! isDigit09 c2
  | _ => false

/-- Score assigned to one candidate window of `best_text_window`
(including the trailing-isolated-digit penalty). -/
def btwScore (sub : List Char) : Frac :=
  pattern_score sub + ((sub.length : Nat) : Frac) * 0.22 + length_prior sub.length -
  (if trailingIsolatedDigit sub then (0.3 : Frac) else 0.0)

/-- The window candidates enumerated by `best_text_window`'s two nested
loops, in iteration order. -/
def btw_windows (text : List Char) : List (List Char) :=
  let n := text.length
  let min_len := if 12 ≤ n then 12 else n
  let max_len := min 18 n
  (List.range' min_len (max_len + 1 - min_len)).flatMap
    (fun win_len => (List.range (n - win_len + 1)).map
      (fun i => (text.drop i).take win_len))

/-- The best-so-far fold of `best_text_window`: a window replaces the
current best only when its score exceeds the best score by more than
`1e-6`. -/
def btwFold : List (List Char) → List Char → Frac → List Char × Frac
  | [], best, best_score => (best, best_score)
  | w :: ws, best, best_score =>
    if Frac.blt (best_score + 1e-6) (btwScore w) then btwFold ws w (btwScore w)
    else btwFold ws best best_score

/-- `best_text_window`: slide windows of length 12–18 over the sanitized
text and keep the best-scoring subrange (the whole text competing first). -/
def best_text_window (text : List Char) : List Char :=
  let text := sanitize_text text
  if text = [] then []
  else (btwFold (btw_windows text) text (btwScore text)).1

/-! ## `normalize_ocr_text` -/

/-- One pass of Python `text.replace("__", "_")` (non-overlapping,
left-to-right). -/
def replaceDunder : List Char → List Char
  | [] => []
  | [c] => [c]
  | c1 :: c2 :: rest =>
    if c1 = '_' ∧ c2 = '_' then '_' :: replaceDunder rest
    else c1 :: replaceDunder (c2 :: rest)

/-- Python `"__" in text`. -/
def hasDunder : List Char → Bool
  | [] => false
  | [_] => false
  | c1 :: c2 :: rest =>
    (decide (c1 = '_') && decide (c2 = '_')) || hasDunder (c2 :: rest)

/-- The `while "__" in text` loop, with explicit fuel (each iteration
strictly shrinks the text, so `text.length` iterations always reach the
fixed point). -/
def collapseDunder : Nat → List Char → List Char
  | 0, t => t
  | fuel + 1, t => if hasDunder t then collapseDunder fuel (replaceDunder t) else t

/-- `normalize_ocr_text`: sanitize, then collapse repeated underscores. -/
def normalize_ocr_text (text : List Char) : List Char :=
  let text := sanitize_text text
  if text = [] then text
  else collapseDunder text.length text

/-! ## `bounded_levenshtein` -/

/-- Inner loop of `bounded_levenshtein`: given the running `cur[j-1]`
(`left`), `prev[j-1]` (`diag`) and the remaining `(b[j-1], prev[j])`
pairs, produce `cur[1..]`. -/
def bl_inner (ca : Char) : Nat → Nat → List (Char × Nat) → List Nat
  | _, _, [] => []
  | left, diag, (cb, up) :: rest =>
    let cj := min (min (up + 1) (left + 1)) (diag + if ca = cb then 0 else 1)
    cj :: bl_inner ca cj up rest

/-- Outer loop of `bounded_levenshtein`: row-by-row with early termination
once the running row minimum exceeds `maxDist`. -/
def bl_loop (b : List Char) (maxDist : Nat) : List Char → Nat → List Nat → Nat
  | [], _, prev => prev.getLastD 0
  | ca :: arest, i, prev =>
    let tail := bl_inner ca i (prev.headD 0) (b.zip (prev.drop 1))
    let row_min := tail.foldl min i
    if maxDist < row_min then maxDist + 1
    else bl_loop b maxDist arest (i + 1) (i :: tail)

/-- `bounded_levenshtein(a, b, max_dist)`. -/
def bounded_levenshtein (a b : List Char) (max_dist : Nat) : Nat :=
  if max_dist < ((a.length : Int) - (b.length : Int)).natAbs then max_dist + 1
  else bl_loop b max_dist a 1 (List.range (b.length + 1))

/-- The true Levenshtein edit distance (unit costs), as the reference
specification `bounded_levenshtein` is measured against. -/
def trueLevenshtein (a b : List Char) : Nat :=
  levenshtein Levenshtein.defaultCost a b

/-! ## `align_to_reference` -/

/-- Inner loop of the alignment DP: produces `(dp[i][j], back[i][j])` for
`j = 1..n` given the running `dp[i][j-1]` (`left`), `dp[i-1][j-1]`
(`diag`) and the `(text[j-1], dp[i-1][j])` pairs.  Back-pointer codes:
`0` substitute, `1` delete-from-reference, `2` insert-in-reference. -/
def alignRowAux (rch : Char) : Nat → Nat → List (Char × Nat) → List (Nat × Nat)
  | _, _, [] => []
  | left, diag, (tch, up) :: rest =>
    let sub := diag + if rch = tch then 0 else 1
    let del := up + 1
    let ins := left + 1
    let bo := if del < sub then (del, 1) else (sub, 0)
    let bo := if ins < bo.1 then (ins, 2) else bo
    bo :: alignRowAux rch bo.1 up rest

/-- Rows `1..m` of the alignment DP (each row is `(dp, back)` pairs). -/
def alignRowsGo (text : List Char) : List Char → Nat → List (Nat × Nat) →
    List (List (Nat × Nat))
  | [], _, _ => []
  | rch :: rrest, i, prevRow =>
    let row := (i, 1) :: alignRowAux rch i (prevRow.headD (0, 0)).1
      (text.zip ((prevRow.drop 1).map Prod.fst))
    row :: alignRowsGo text rrest (i + 1) row

/-- The back-pointer walk of `align_to_reference`, emitting the aligned
character (or `none`) for reference positions `i-1, i-2, …` in that
order; fuel `i + j` always suffices. -/
def alignWalk (back : List (List Nat)) (text : List Char) :
    Nat → Nat → Nat → List (Option Char)
  | 0, _, _ => []
  | fuel + 1, i, j =>
    if i = 0 then
      if j = 0 then [] else alignWalk back text fuel 0 (j - 1)
    else if j = 0 then none :: alignWalk back text fuel (i - 1) 0
    else
      let op := (back.getD i []).getD j 0
      if op = 0 then some (text.getD (j - 1) ' ') :: alignWalk back text fuel (i - 1) (j - 1)
      else if op = 1 then none :: alignWalk back text fuel (i - 1) j
      else alignWalk back text fuel i (j - 1)

/-- `align_to_reference(reference, text)`: for every reference position,
the aligned character of `text`, or `none` when that position was
deleted. -/
def align_to_reference (reference text : List Char) : List (Option Char) :=
  let m := reference.length
  let n := text.length
  if m = 0 then []
  else if n = 0 then List.replicate m none
  else
    let row0 : List (Nat × Nat) := (0, 0) :: (List.range n).map (fun j => (j + 1, 2))
    let mat := row0 :: alignRowsGo text reference 1 row0
    let back := mat.map (fun r => r.map Prod.snd)
    (alignWalk back text (m + n) m n).reverse

/-! ## `position_vote` -/

/-- Ordered-dictionary accumulation: Python `d[k] = d.get(k, 0.0) + v`
(insertion order preserved, updates in place). -/
def dictAdd {α : Type} [DecidableEq α] (k : α) (v : Frac) :
    List (α × Frac) → List (α × Frac)
  | [] => [(k, v)]
  | (k', v') :: rest =>
    if k' = k then (k', v' + v) :: rest else (k', v') :: dictAdd k v rest

/-- Python `max(items, key=λkv: kv[1])`: the first item with maximal
value. -/
def dictMaxBySnd {α : Type} : List (α × Frac) → Option (α × Frac)
  | [] => none
  | kv :: rest =>
    some (rest.foldl (fun acc kv' => if Frac.blt acc.2 kv'.2 then kv' else acc) kv)

/-- Python `max(l, key=f)` for a rational-valued key: first maximum. -/
def pyMaxByFrac {α : Type} (key : α → Frac) : List α → Option α
  | [] => none
  | x :: xs =>
    some (xs.foldl (fun acc y => if Frac.blt (key acc) (key y) then y else acc) x)

/-- Python `<` on `(int, float)` pairs (lexicographic). -/
def pairLt (a b : Int × Frac) : Bool :=
  decide (a.1 < b.1) || (decide (a.1 = b.1) && Frac.blt a.2 b.2)

/-- Python `max(l, key=f)` for an `(int, float)`-valued key. -/
def pyMaxByPair {α : Type} (key : α → Int × Frac) : List α → Option α
  | [] => none
  | x :: xs =>
    some (xs.foldl (fun acc y => if pairLt (key acc) (key y) then y else acc) x)

/-- `position_vote(variants)`: per-position weighted character plurality
over alignments to a target-length-selected reference string. -/
def position_vote (variants : List (List Char × Frac)) : List Char :=
  match variants with
  | [] => []
  | [v] => v.1
  | _ =>
    let len_weight := variants.foldl
      (fun d tw => dictAdd tw.1.length (Frac.fmax 0.01 tw.2) d) []
    let target_len := ((dictMaxBySnd len_weight).getD (0, 0.0)).1
    let reference := ((pyMaxByPair (fun tw =>
      (-((((tw.1.length : Int) - (target_len : Int)).natAbs : Int)),
        Frac.fmax 0.01 tw.2)) variants).getD ([], 0.0)).1
    let reference := if reference = [] then (variants.headD ([], 0.0)).1 else reference
    (List.range reference.length).map (fun i =>
      let votes := variants.foldl (fun (vd : List (Char × Frac)) tw =>
        if tw.1 = [] then vd
        else
          let weight := Frac.fmax 0.01 tw.2 /
            (1.0 + ((((tw.1.length : Int) - (target_len : Int)).natAbs : Nat) : Frac) * 0.35)
          let aligned := align_to_reference reference tw.1
          if aligned.length ≤ i then vd
          else
            match aligned.getD i none with
            | none => vd
            | some ch => dictAdd ch weight vd) []
      match dictMaxBySnd votes with
      | some kv => kv.1
      | none => reference.getD i ' ')

/-! ## `select_consensus_candidate` -/

/-- One consensus cluster: representative seed string, best base score,
member `(text, confidence, base)` entries. -/
structure SCluster where
  seed : List Char
  best_base : Frac
  variants : List (List Char × Frac × Frac)

/-- Stable insertion keeping the list sorted by strictly decreasing key
(an element is placed after every element of greater-or-equal key). -/
def insertDescBy {α : Type} (key : α → Frac) (x : α) : List α → List α
  | [] => [x]
  | y :: ys =>
    if Frac.blt (key y) (key x) then x :: y :: ys else y :: insertDescBy key x ys

/-- Python `sorted(l, key=key, reverse=True)`: the stable descending sort
(uniquely determined by the key order and stability, here realised by
insertion sort). -/
def pySortDescBy {α : Type} (key : α → Frac) (l : List α) : List α :=
  l.foldl (fun acc x => insertDescBy key x acc) []

/-- The greedy cluster-assignment loop body of `select_consensus_candidate`:
try to place an entry into the first compatible cluster (`none` if no
cluster accepts it). -/
def placeEntry (e : List Char × Frac × Frac) (max_dist : Nat) :
    List SCluster → Option (List SCluster)
  | [] => none
  | c :: cs =>
    if max_dist < ((c.seed.length : Int) - (e.1.length : Int)).natAbs then
      match placeEntry e max_dist cs with
      | some cs' => some (c :: cs')
      | none => none
    else if bounded_levenshtein c.seed e.1 max_dist ≤ max_dist then
      some ((if Frac.blt c.best_base e.2.2 then
        { seed := e.1, best_base := e.2.2, variants := c.variants ++ [e] }
      else
        { c with variants := c.variants ++ [e] }) :: cs)
    else
      match placeEntry e max_dist cs with
      | some cs' => some (c :: cs')
      | none => none

/-- Python `max(gen)` over a nonempty list of confidences (first maximum). -/
def maxConfOf (v : List Char × Frac × Frac) (vs : List (List Char × Frac × Frac)) : Frac :=
  vs.foldl (fun m x => Frac.fmax m x.2.1) v.2.1

/-- `select_consensus_candidate(candidates)`: normalize every candidate,
choose a global target length by weighted mode, cluster near-duplicates by
bounded edit distance, position-vote inside each cluster and rank the
clusters; returns the final `(text, confidence)`. -/
def select_consensus_candidate (candidates : List (List Detection × List Char)) :
    List Char × Frac :=
  let entries := candidates.foldr (fun c acc =>
    let text := normalize_ocr_text (best_text_window c.2)
    if text = [] then acc
    else (text, candidate_confidence c.1, score_result c.1 text) :: acc) []
  if entries.isEmpty then ([], 0.0)
  else
    let len_weights := entries.foldl (fun d e =>
      dictAdd e.1.length
        (Frac.fmax 0.2 (e.2.1 * 2.0) + Frac.fmax 0.0 (e.2.2 * 0.05)) d) []
    let target_len := ((dictMaxBySnd len_weights).getD (0, 0.0)).1
    let clusters := (pySortDescBy (fun e => e.2.2) entries).foldl (fun cls e =>
      let max_dist := if e.1.length ≤ 18 then 2 else 3
      match placeEntry e max_dist cls with
      | some cls' => cls'
      | none => cls ++ [⟨e.1, e.2.2, [e]⟩]) []
    let best := clusters.foldl (fun (acc : List Char × Frac × Frac) cl =>
      let voted := position_vote (cl.variants.map (fun v =>
        (v.1, Frac.fmax 0.05 v.2.1 * Frac.fmax 1.0 ((v.1.length : Nat) : Frac))))
      let voted := normalize_ocr_text (best_text_window voted)
      if voted = [] then acc
      else
        match cl.variants with
        | [] => acc
        | v :: vs =>
          let sum_base := (v :: vs).foldl (fun s x => s + x.2.2) 0.0
          let avg_base := sum_base / ((max 1 (v :: vs).length : Nat) : Frac)
          let max_conf := maxConfOf v vs
          let hits := (v :: vs).length
          let len_bonus := Frac.fmax 0.0
            (4.6 - ((((voted.length : Int) - (target_len : Int)).natAbs : Nat) : Frac) * 1.45)
          let score := avg_base * 0.95 + pattern_score voted * 1.35 +
            max_conf * 2.4 + ((min 3 hits : Nat) : Frac) * 1.1 + len_bonus * 0.35
          if Frac.blt acc.2.2 score then (voted, max_conf, score) else acc)
      ([], 0.0, -1e9)
    if best.1 = [] then
      match pyMaxByFrac (fun e => e.2.2) entries with
      | some e => (e.1, e.2.1)
      | none => ([], 0.0)
    else (best.1, best.2.1)

/-! ## Geometry: `order_quad_points` -/

instance : DecidableEq Frac := fun a b =>
  decidable_of_iff (a.num = b.num ∧ a.den = b.den) (by cases a; cases b; simp)

/-- `np.argmin(f)`-style selection: the first element minimizing `f`. -/
def pyArgminBy {α : Type} (f : α → Frac) (x : α) (xs : List α) : α :=
  xs.foldl (fun acc y => if Frac.blt (f y) (f acc) then y else acc) x

/-- `np.argmax(f)`-style selection: the first element maximizing `f`. -/
def pyArgmaxBy {α : Type} (f : α → Frac) (x : α) (xs : List α) : α :=
  xs.foldl (fun acc y => if Frac.blt (f acc) (f y) then y else acc) x

/-- `order_quad_points(pts)`: canonical `[top-left, top-right,
bottom-right, bottom-left]` via the sum/difference rule
(`s = x + y`, `d = y - x`; `tl = argmin s`, `br = argmax s`,
`tr = argmin d`, `bl = argmax d`). -/
def order_quad_points (pts : List (Frac × Frac)) : List (Frac × Frac) :=
  match pts with
  | [] => []
  | p :: ps =>
    let s := fun q : Frac × Frac => q.1 + q.2
    let d := fun q : Frac × Frac => q.2 - q.1
    [pyArgminBy s p ps, pyArgminBy d p ps, pyArgmaxBy s p ps, pyArgmaxBy d p ps]

/-! ## ROI prioritization -/

/-- Absolute value. -/
def Frac.fabs (a : Frac) : Frac := ⟨(a.num.natAbs : Int), a.den, a.den_pos⟩

instance : IntCast Frac := ⟨fun n => ⟨n, 1, Int.one_pos⟩⟩

/-- An axis-aligned ROI `(x0, y0, x1, y1)` in integer pixel coordinates. -/
abbrev Roi := Int × Int × Int × Int

/-- `roi_priority_score(roi, img_shape)` for an image of height `h` and
width `w`. -/
def roi_priority_score (roi : Roi) (h w : Int) : Frac :=
  let x0 := roi.1
  let y0 := roi.2.1
  let x1 := roi.2.2.1
  let y1 := roi.2.2.2
  let rw := max 1 (x1 - x0)
  let rh := max 1 (y1 - y0)
  let area_ratio := ((rw * rh : Int) : Frac) / ((max 1 (w * h) : Int) : Frac)
  let width_ratio := ((rw : Int) : Frac) / ((max 1 w : Int) : Frac)
  let height_ratio := ((rh : Int) : Frac) / ((max 1 h : Int) : Frac)
  let aspect := ((rw : Int) : Frac) / ((rh : Int) : Frac)
  let cx := ((x0 + x1 : Int) : Frac) * 0.5
  let cy := ((y0 + y1 : Int) : Frac) * 0.5
  let dx := (cx - ((w : Int) : Frac) * 0.5).fabs / Frac.fmax 1.0 (((w : Int) : Frac) * 0.5)
  let dy := (cy - ((h : Int) : Frac) * 0.62).fabs / Frac.fmax 1.0 (((h : Int) : Frac) * 0.62)
  let center_bonus := Frac.fmax 0.0 (1.0 - 0.95 * dx - 0.70 * dy)
  width_ratio * 11.0 + Frac.fmin 4.5 (area_ratio * 95.0) +
  Frac.fmin 2.0 (Frac.fmax 0.0 (aspect - 1.2) * 0.18) + center_bonus * 2.0 +
  (if Frac.blt width_ratio 0.20 then -((0.20 - width_ratio) * 22.0) else 0.0) +
  (if Frac.blt area_ratio 0.012 then -((0.012 - area_ratio) * 120.0) else 0.0) +
  (if Frac.blt height_ratio 0.025 then -(0.9 : Frac) else 0.0)

/-- Python `max(l, key=f)` for an integer-valued key: first maximum. -/
def pyMaxByInt {α : Type} (key : α → Int) (x : α) (xs : List α) : α :=
  xs.foldl (fun acc y => if key acc < key y then y else acc) x

/-- `prioritize_rois(rois, img_shape)`: sort by priority score
(descending, stable) and promote the widest candidate into the first two
slots. -/
def prioritize_rois (rois : List Roi) (h w : Int) : List Roi :=
  if rois.isEmpty then []
  else
    let ordered := pySortDescBy (fun r => roi_priority_score r h w) rois
    match ordered with
    | [] => []
    | r :: rs =>
      let widest := pyMaxByInt (fun q => q.2.2.1 - q.1) r rs
      if r = widest then r :: rs
      else r :: widest :: rs.filter (fun x => decide (x ≠ widest))

/-! ## The gamma-LUT cache (`apply_gamma_correction`) -/

/-- The gamma value selected from the crop's mean luminance, or `none`
when the crop is returned unchanged (`mean_lum ∈ [120, 160]`). -/
def gammaFor (mean_lum : Frac) : Option Frac :=
  if Frac.blt mean_lum 80.0 then some 0.75
  else if Frac.blt mean_lum 120.0 then some 0.85
  else if Frac.blt 200.0 mean_lum then some 1.3
  else if Frac.blt 160.0 mean_lum then some 1.15
  else none

/-- `apply_gamma_correction`, with the lookup-table construction and
application abstracted (`lutApply`) since they involve transcendental
float math; the cache is modelled by its key set (in insertion order),
which is all the claims below depend on.  Returns the corrected image
and the updated cache. -/
def apply_gamma_correction {Img : Type} (lutApply : Frac → Img → Img)
    (meanLum : Img → Frac) (cache : List Frac) (img : Img) : Img × List Frac :=
  match gammaFor (meanLum img) with
  | none => (img, cache)
  | some gamma =>
    let cache := if cache.any (fun k => Frac.beq k gamma) then cache
      else cache ++ [gamma]
    (lutApply gamma img, cache)

/-- The cache contents after a sequence of `apply_gamma_correction` calls. -/
def runGammaCalls {Img : Type} (lutApply : Frac → Img → Img)
    (meanLum : Img → Frac) (imgs : List Img) (cache : List Frac) : List Frac :=
  imgs.foldl (fun c img => (apply_gamma_correction lutApply meanLum c img).2) cache

/-! ## Frame driver: result emission -/

/-- Decimal digits of a natural number (fuel-driven; `fuel ≥ n` always
suffices). -/
def natDigitsGo : Nat → Nat → List Char
  | 0, _ => []
  | fuel + 1, n =>
    if n < 10 then [Char.ofNat (48 + n)]
    else natDigitsGo fuel (n / 10) ++ [Char.ofNat (48 + n % 10)]

/-- Round to the nearest integer, ties to even (float `format` rounding
on the exact value). -/
def roundHalfEven (a : Frac) : Int :=
  let q := a.num.fdiv a.den
  let r := a.num - a.den * q
  if a.den < 2 * r then q + 1
  else if 2 * r < a.den then q
  else if q % 2 = 0 then q else q + 1

/-- Python `f"{conf:.4f}"` on the exact rational value. -/
def fmt4 (q : Frac) : List Char :=
  let s := roundHalfEven (q * 10000)
  let a := s.natAbs
  let frac := a % 10000
  let fracDigits := natDigitsGo (frac + 1) frac
  (if s < 0 then ['-'] else []) ++ natDigitsGo (a / 10000 + 1) (a / 10000) ++
  ['.'] ++ (List.replicate (4 - fracDigits.length) '0' ++ fracDigits)

/-- The `FINAL<TAB>conf<TAB>text` protocol line. -/
def final_line (conf : Frac) (text : List Char) : List Char :=
  String.toList "FINAL" ++ ['\t'] ++ fmt4 conf ++ ['\t'] ++ text

/-- The result-emission tail of the frame driver (`main`, after all
recognition passes): pick the best-scoring candidate, overlay the
consensus, re-normalize, and emit the `FINAL` line (token present) plus
the unconditional blank line ending the unit.  A line is a `List Char`;
the blank line is `[]`. -/
def emit_frame_result (candidates : List (List Detection × List Char))
    (roi_clipped : Bool) : List (List Char) :=
  match pyMaxByFrac (fun c => score_result c.1 c.2) candidates with
  | none => [[]]
  | some best =>
    let sc := select_consensus_candidate candidates
    let combined := if sc.1.isEmpty then best.2 else sc.1
    let combined := if combined.isEmpty then combined
      else normalize_ocr_text (best_text_window combined)
    if combined.isEmpty then [[]]
    else
      let conf := if sc.1.isEmpty then candidate_confidence best.1 else sc.2
      let conf := if roi_clipped then conf * 0.70 else conf
      [final_line conf combined, []]

/-- The frame's final consensus token (the text the driver would put on
the `FINAL` line), re-derived for specification purposes. -/
def frame_token (candidates : List (List Detection × List Char)) : List Char :=
  match pyMaxByFrac (fun c => score_result c.1 c.2) candidates with
  | none => []
  | some best =>
    let sc := select_consensus_candidate candidates
    let combined := if sc.1.isEmpty then best.2 else sc.1
    if combined.isEmpty then [] else normalize_ocr_text (best_text_window combined)

/-- The confidence the driver would emit for the frame. -/
def frame_conf (candidates : List (List Detection × List Char))
    (roi_clipped : Bool) : Frac :=
  match pyMaxByFrac (fun c => score_result c.1 c.2) candidates with
  | none => 0.0
  | some best =>
    let sc := select_consensus_candidate candidates
    let conf := if sc.1.isEmpty then candidate_confidence best.1 else sc.2
    if roi_clipped then conf * 0.70 else conf

/-! ## Proof scaffolding and concrete data -/

/-- Substitution cost of the unit-cost Levenshtein distance. -/
def levc (x y : Char) : Nat := if x = y then 0 else 1

/-- The Levenshtein DP row tail for prefix `p`: entries
`trueLevenshtein p (q ++ rest.take j)` for `j = 1, …, rest.length`. -/
def rowFor (p : List Char) : List Char → List Char → List Nat
  | _, [] => []
  | q, r :: rest => trueLevenshtein p (q ++ [r]) :: rowFor p (q ++ [r]) rest

/-- The canonical example token. -/
def TOKEN : List Char := String.toList "T3*1-B?+AcJ3@_9L"

/-- The noisy variant of the token (one deletion, one substitution). -/
def TOKEN_NOISY : List Char := String.toList "T31-B7+AcJ3@_9L"

/-- Counterexample strings for the `bounded_levenshtein` sentinel claim. -/
def CE_A : List Char := String.toList "aabbbb"

def CE_B : List Char := String.toList "bbbbcc"

/-- 16- and 10-character sample texts for the `is_good_candidate` cases. -/
def SAMPLE16 : List Char := String.toList "abcdefghijklmnop"

def SAMPLE10 : List Char := String.toList "abcdefghij"

/-- A throwaway detection quadrilateral (never inspected by the claims). -/
def QUAD0 : List (Frac × Frac) := [(0, 0), (100, 0), (100, 20), (0, 20)]

/-- The three synthetic candidates of the consensus test scenario. -/
def C2_CANDS : List (List Detection × List Char) :=
  [([⟨QUAD0, TOKEN, 0.8⟩], TOKEN),
   ([⟨QUAD0, TOKEN, 0.8⟩], TOKEN),
   ([⟨QUAD0, TOKEN_NOISY, 0.8⟩], TOKEN_NOISY)]

/-- A single-candidate frame for driver witnesses. -/
def CANDS1 : List (List Detection × List Char) := [([⟨QUAD0, TOKEN, 0.8⟩], TOKEN)]

/-- An 8-character string with the token's character-class mix. -/
def MIX8 : List Char := String.toList "aBc3@_?1"

/-- Four points with tied coordinate sums, exhibiting the order dependence
of `order_quad_points`. -/
def C8_PTS : List (Frac × Frac) := [(0, 2), (1, 1), (2, 0), (0, 0)]

/-- The same four points with the first two swapped. -/
def C8_PTS_SWAP : List (Frac × Frac) := [(1, 1), (0, 2), (2, 0), (0, 0)]

/-! # Theorems

Bridging lemmas for `Frac`, then the claim-by-claim development. -/

namespace Frac

theorem den_q_pos (a : Frac) : (0 : ℚ) < (a.den : ℚ) := by
  exact_mod_cast a.den_pos

theorem den_q_ne (a : Frac) : (a.den : ℚ) ≠ 0 := ne_of_gt a.den_q_pos

theorem ble_iff (a b : Frac) : ble a b = true ↔ a.toQ ≤ b.toQ := by
  rw [ble, decide_eq_true_iff, toQ, toQ,
    div_le_div_iff₀ a.den_q_pos b.den_q_pos]
  exact_mod_cast Iff.rfl

theorem blt_iff (a b : Frac) : blt a b = true ↔ a.toQ < b.toQ := by
  rw [blt, decide_eq_true_iff, toQ, toQ,
    div_lt_div_iff₀ a.den_q_pos b.den_q_pos]
  exact_mod_cast Iff.rfl

theorem beq_iff (a b : Frac) : beq a b = true ↔ a.toQ = b.toQ := by
  rw [beq, decide_eq_true_iff, toQ, toQ,
    div_eq_div_iff a.den_q_ne b.den_q_ne]
  exact_mod_cast Iff.rfl

@[simp] theorem toQ_add (a b : Frac) : (a + b).toQ = a.toQ + b.toQ := by
  show toQ (add a b) = _
  rw [toQ, toQ, toQ, add, div_add_div _ _ a.den_q_ne b.den_q_ne]
  push_cast
  ring_nf

@[simp] theorem toQ_neg (a : Frac) : (-a).toQ = -a.toQ := by
  show toQ (neg a) = _
  rw [toQ, toQ, neg]
  push_cast
  ring_nf

@[simp] theorem toQ_mul (a b : Frac) : (a * b).toQ = a.toQ * b.toQ := by
  show toQ (mul a b) = _
  rw [toQ, toQ, toQ, mul]
  push_cast
  rw [div_mul_div_comm]

@[simp] theorem toQ_sub (a b : Frac) : (a - b).toQ = a.toQ - b.toQ := by
  show toQ (a + -b) = _
  rw [toQ_add, toQ_neg, sub_eq_add_neg]

@[simp] theorem toQ_ofNat (n : Nat) : (OfNat.ofNat n : Frac).toQ = (n : ℚ) := by
  show ((n : Int) : ℚ) / ((1 : Int) : ℚ) = _
  norm_num

@[simp] theorem toQ_natCast (n : Nat) : ((n : Frac)).toQ = (n : ℚ) := by
  show ((n : Int) : ℚ) / ((1 : Int) : ℚ) = _
  norm_num

@[simp] theorem toQ_zero : (0 : Frac).toQ = 0 := by
  show ((0 : Int) : ℚ) / ((1 : Int) : ℚ) = 0
  norm_num

@[simp] theorem toQ_one : (1 : Frac).toQ = 1 := by
  show ((1 : Int) : ℚ) / ((1 : Int) : ℚ) = 1
  norm_num

@[simp] theorem toQ_sci_neg (m e : Nat) :
    (OfScientific.ofScientific m true e : Frac).toQ = (m : ℚ) / 10 ^ e := by
  show ((m : Int) : ℚ) / (((10 : Int) ^ e : Int) : ℚ) = _
  push_cast
  ring_nf

@[simp] theorem toQ_sci_pos (m e : Nat) :
    (OfScientific.ofScientific m false e : Frac).toQ = (m : ℚ) * 10 ^ e := by
  show (((m : Int) * (10 : Int) ^ e : Int) : ℚ) / ((1 : Int) : ℚ) = _
  push_cast
  ring_nf

theorem toQ_fmin (a b : Frac) : (fmin a b).toQ = min a.toQ b.toQ := by
  rw [fmin]
  by_cases h : ble a b = true
  · rw [if_pos h, min_eq_left (a.ble_iff b |>.mp h)]
  · rw [if_neg h]
    have : ¬ a.toQ ≤ b.toQ := fun hle => h ((a.ble_iff b).mpr hle)
    rw [min_eq_right (le_of_not_le this)]

theorem toQ_fmax (a b : Frac) : (fmax a b).toQ = max a.toQ b.toQ := by
  rw [fmax]
  by_cases h : ble b a = true
  · rw [if_pos h, max_eq_left (b.ble_iff a |>.mp h)]
  · rw [if_neg h]
    have : ¬ b.toQ ≤ a.toQ := fun hle => h ((b.ble_iff a).mpr hle)
    rw [max_eq_right (le_of_not_le this)]

end Frac

/-! ## C10: the gamma-LUT cache -/

theorem gammaFor_mem (m g : Frac) (h : gammaFor m = some g) :
    g = 0.75 ∨ g = 0.85 ∨ g = 1.3 ∨ g = 1.15 := by
  unfold gammaFor at h
  split at h
  · exact Or.inl (Option.some.inj h).symm
  · split at h
    · exact Or.inr (Or.inl (Option.some.inj h).symm)
    · split at h
      · exact Or.inr (Or.inr (Or.inl (Option.some.inj h).symm))
      · split at h
        · exact Or.inr (Or.inr (Or.inr (Option.some.inj h).symm))
        · exact absurd h (by simp)

/-- Invariant carried across gamma-correction calls: the cache keys are
gamma values from the fixed four-element set, with pairwise distinct
rational values. -/
def GammaCacheInv (c : List Frac) : Prop :=
  (∀ k ∈ c, k.toQ ∈ ({0.75, 0.85, 1.15, 1.3} : Set ℚ)) ∧ (c.map Frac.toQ).Nodup

theorem gamma_step_inv {Img : Type} (lutApply : Frac → Img → Img)
    (meanLum : Img → Frac) (cache : List Frac) (img : Img)
    (h : GammaCacheInv cache) :
    GammaCacheInv (apply_gamma_correction lutApply meanLum cache img).2 := by
  unfold apply_gamma_correction
  cases hg : gammaFor (meanLum img) with
  | none => exact h
  | some g =>
    simp only
    split
    · exact h
    · rename_i hnotin
      have hgq : g.toQ ∈ ({0.75, 0.85, 1.15, 1.3} : Set ℚ) := by
        rcases gammaFor_mem _ _ hg with rfl | rfl | rfl | rfl <;>
          norm_num [Frac.toQ_sci_neg]
      constructor
      · intro k hk
        rcases List.mem_append.mp hk with hk | hk
        · exact h.1 k hk
        · rw [List.mem_singleton.mp hk]
          exact hgq
      · rw [List.map_append]
        refine List.Nodup.append h.2 (by simp) ?_
        intro x hx hy
        simp only [List.map_cons, List.map_nil, List.mem_singleton] at hy
        subst hy
        rcases List.mem_map.mp hx with ⟨k, hk, hkq⟩
        have : Frac.beq k g = false := by
          by_contra hb
          exact hnotin (List.any_eq_true.mpr ⟨k, hk, by simpa using hb⟩)
        have : ¬ (k.toQ = g.toQ) := fun he => by
          rw [← Frac.beq_iff] at he
          simp [he] at this
        exact this hkq

theorem gamma_run_inv {Img : Type} (lutApply : Frac → Img → Img)
    (meanLum : Img → Frac) (imgs : List Img) (cache : List Frac)
    (h : GammaCacheInv cache) :
    GammaCacheInv (runGammaCalls lutApply meanLum imgs cache) := by
  induction imgs generalizing cache with
  | nil => exact h
  | cons i is ih =>
    exact ih _ (gamma_step_inv lutApply meanLum cache i h)

theorem gamma_inv_length {c : List Frac} (h : GammaCacheInv c) : c.length ≤ 4 := by
  have hsub : (c.map Frac.toQ).toFinset ⊆ ({0.75, 0.85, 1.15, 1.3} : Finset ℚ) := by
    intro x hx
    rcases List.mem_map.mp (List.mem_toFinset.mp hx) with ⟨k, hk, rfl⟩
    have := h.1 k hk
    simpa using this
  have hcard := Finset.card_le_card hsub
  rw [List.toFinset_card_of_nodup h.2] at hcard
  have : ({0.75, 0.85, 1.15, 1.3} : Finset ℚ).card ≤ 4 := by
    refine le_trans (Finset.card_insert_le _ _) (Nat.succ_le_succ ?_)
    refine le_trans (Finset.card_insert_le _ _) (Nat.succ_le_succ ?_)
    refine le_trans (Finset.card_insert_le _ _) (Nat.succ_le_succ ?_)
    simp
  simp only [List.length_map] at hcard
  omega

/-- C10.  Across any sequence of `apply_gamma_correction` calls starting
from the empty cache, every cache key is one of the gamma values
`0.75, 0.85, 1.15, 1.3` (so the cache never exceeds 4 entries), and a
crop whose mean luminance lies in `[120, 160]` is returned unchanged with
the cache untouched. -/
theorem claim_C10 {Img : Type} (lutApply : Frac → Img → Img)
    (meanLum : Img → Frac) (imgs : List Img) :
    ((∀ k ∈ runGammaCalls lutApply meanLum imgs [],
        k.toQ ∈ ({0.75, 0.85, 1.15, 1.3} : Set ℚ)) ∧
      (runGammaCalls lutApply meanLum imgs []).length ≤ 4) ∧
    (∀ (cache : List Frac) (img : Img),
      (120 : ℚ) ≤ (meanLum img).toQ → (meanLum img).toQ ≤ 160 →
      apply_gamma_correction lutApply meanLum cache img = (img, cache)) := by
  constructor
  · have hinv := gamma_run_inv lutApply meanLum imgs [] ⟨by simp, by simp⟩
    exact ⟨hinv.1, gamma_inv_length hinv⟩
  · intro cache img h1 h2
    have hb : ∀ x : Frac, (120 : ℚ) ≤ x.toQ → x.toQ ≤ 160 →
        gammaFor x = none := by
      intro x hx1 hx2
      have e80 : Frac.blt x 80.0 = false := by
        rw [← Bool.not_eq_true, Frac.blt_iff]
        intro hlt
        rw [show ((80.0 : Frac)).toQ = 80 by norm_num [Frac.toQ_sci_neg]] at hlt
        linarith
      have e120 : Frac.blt x 120.0 = false := by
        rw [← Bool.not_eq_true, Frac.blt_iff]
        intro hlt
        rw [show ((120.0 : Frac)).toQ = 120 by norm_num [Frac.toQ_sci_neg]] at hlt
        linarith
      have e200 : Frac.blt 200.0 x = false := by
        rw [← Bool.not_eq_true, Frac.blt_iff]
        intro hlt
        rw [show ((200.0 : Frac)).toQ = 200 by norm_num [Frac.toQ_sci_neg]] at hlt
        linarith
      have e160 : Frac.blt 160.0 x = false := by
        rw [← Bool.not_eq_true, Frac.blt_iff]
        intro hlt
        rw [show ((160.0 : Frac)).toQ = 160 by norm_num [Frac.toQ_sci_neg]] at hlt
        linarith
      unfold gammaFor
      rw [e80, e120, e200, e160]
      simp
    unfold apply_gamma_correction
    rw [hb _ h1 h2]

/-- Witness for C10 at a concrete luminance-130 image stream. -/
theorem claim_C10_witness :
    apply_gamma_correction (fun (_ : Frac) (u : Unit) => u) (fun _ => (130.0 : Frac))
      [] () = ((), []) :=
  (claim_C10 (fun _ u => u) (fun _ => (130.0 : Frac)) []).2 [] ()
    (by norm_num [Frac.toQ_sci_neg]) (by norm_num [Frac.toQ_sci_neg])

/-! ## C4: `is_good_candidate` -/

theorem has_strong_result_iff (results : List Detection) :
    has_strong_result results = true ↔
      ∃ d ∈ results, (0.50 : ℚ) ≤ d.conf.toQ ∧ 2 ≤ (pyStrip d.text).length := by
  unfold has_strong_result
  rw [List.any_eq_true]
  constructor
  · rintro ⟨d, hd, hp⟩
    rw [Bool.and_eq_true, Frac.ble_iff, decide_eq_true_iff] at hp
    refine ⟨d, hd, ?_, hp.2⟩
    have : ((0.50 : Frac)).toQ = (0.50 : ℚ) := by norm_num [Frac.toQ_sci_neg]
    rw [← this]
    exact hp.1
  · rintro ⟨d, hd, hc, hl⟩
    refine ⟨d, hd, ?_⟩
    rw [Bool.and_eq_true, Frac.ble_iff, decide_eq_true_iff]
    refine ⟨?_, hl⟩
    have : ((0.50 : Frac)).toQ = (0.50 : ℚ) := by norm_num [Frac.toQ_sci_neg]
    rw [this]
    exact hc

/-- C4.  `is_good_candidate(results, combined)` holds exactly when
`combined` is non-empty of length ≥ 14 and either the length-weighted
mean confidence is ≥ 0.65 or some single detection has confidence ≥ 0.50
with trimmed length ≥ 2; in particular it accepts weighted confidence
0.70 at length 16, and rejects length 10 (same confidence) and weighted
confidence 0.40 at length 16 without a strong single detection. -/
theorem claim_C4 :
    (∀ (results : List Detection) (combined : List Char),
      is_good_candidate results combined = true ↔
        combined ≠ [] ∧ 14 ≤ combined.length ∧
          ((0.65 : ℚ) ≤ (candidate_confidence results).toQ ∨
            ∃ d ∈ results, (0.50 : ℚ) ≤ d.conf.toQ ∧ 2 ≤ (pyStrip d.text).length)) ∧
    is_good_candidate [⟨QUAD0, SAMPLE16, 0.7⟩] SAMPLE16 = true ∧
    is_good_candidate [⟨QUAD0, SAMPLE16, 0.7⟩] SAMPLE10 = false ∧
    is_good_candidate [⟨QUAD0, SAMPLE16, 0.4⟩] SAMPLE16 = false := by
  refine ⟨fun results combined => ?_, by decide, by decide, by decide⟩
  by_cases hc : combined = []
  · simp [is_good_candidate, hc]
  · have h65 : ((0.65 : Frac)).toQ = (0.65 : ℚ) := by norm_num [Frac.toQ_sci_neg]
    unfold is_good_candidate
    rw [if_neg hc]
    simp only
    by_cases h1 : (Frac.ble 0.65 (candidate_confidence results) &&
        decide (14 ≤ combined.length)) = true
    · rw [if_pos h1]
      rw [Bool.and_eq_true, Frac.ble_iff, decide_eq_true_iff] at h1
      exact iff_of_true rfl ⟨hc, h1.2, Or.inl (h65 ▸ h1.1)⟩
    · rw [if_neg h1]
      by_cases h2 : (has_strong_result results && decide (14 ≤ combined.length)) = true
      · rw [if_pos h2]
        rw [Bool.and_eq_true, decide_eq_true_iff] at h2
        exact iff_of_true rfl ⟨hc, h2.2, Or.inr ((has_strong_result_iff _).mp h2.1)⟩
      · rw [if_neg h2]
        refine iff_of_false (by simp) ?_
        rintro ⟨-, hlen, hor⟩
        rcases hor with hconf | hstrong
        · exact h1 ((Bool.and_eq_true _ _).mpr
            ⟨(Frac.ble_iff _ _).mpr (h65 ▸ hconf), decide_eq_true hlen⟩)
        · exact h2 ((Bool.and_eq_true _ _).mpr
            ⟨(has_strong_result_iff _).mpr hstrong, decide_eq_true hlen⟩)

/-! ## C7: `pattern_score` dominance of the canonical token -/

theorem countP_or_le (p q : Char → Bool) (l : List Char) :
    l.countP (fun c => p c || q c) ≤ l.countP p + l.countP q := by
  induction l with
  | nil => simp
  | cons c cs ih =>
    by_cases hp : p c = true <;> by_cases hq : q c = true <;>
      simp [List.countP_cons, hp, hq] <;> omega

theorem pattern_score_token : (pattern_score TOKEN).toQ = 11.2 := by
  have h := (Frac.beq_iff (pattern_score TOKEN) 11.2).mp (by decide)
  rw [show ((11.2 : Frac)).toQ = (11.2 : ℚ) by norm_num [Frac.toQ_sci_neg]] at h
  exact h

theorem pattern_score_all_letters (t : List Char) (hlen : t.length = 16)
    (hlet : ∀ c ∈ t, isUpperAZ c = true ∨ isLowerAZ c = true) :
    (pattern_score t).toQ = 4.4 := by
  have hne : t ≠ [] := by intro h; rw [h] at hlen; simp at hlen
  have hall : t.countP (fun c => isUpperAZ c || isLowerAZ c) = 16 := by
    rw [List.countP_eq_length.mpr, hlen]
    intro c hc
    rcases hlet c hc with h | h <;> simp [h]
  have hupplow : 3 ≤ t.countP isUpperAZ + t.countP isLowerAZ := by
    have := countP_or_le isUpperAZ isLowerAZ t
    omega
  have hdig : t.countP isDigit09 = 0 := by
    rw [List.countP_eq_zero]
    intro c hc hd
    simp only [isDigit09, Bool.and_eq_true, decide_eq_true_iff] at hd
    rcases hlet c hc with h | h <;>
      simp only [isUpperAZ, isLowerAZ, Bool.and_eq_true, decide_eq_true_iff] at h
    · exact absurd (le_trans h.1 hd.2) (by decide)
    · exact absurd (le_trans h.1 hd.2) (by decide)
  have hsym : t.countP (fun ch => ! isAlnumPy ch) = 0 := by
    rw [List.countP_eq_zero]
    intro c hc hs
    rcases hlet c hc with h | h <;> simp [isAlnumPy, h] at hs
  have hat : ¬ ('@' ∈ t) := fun hm => by
    rcases hlet '@' hm with h | h <;> exact absurd h (by decide)
  have hus : ¬ ('_' ∈ t) := fun hm => by
    rcases hlet '_' hm with h | h <;> exact absurd h (by decide)
  have hq : ¬ ('?' ∈ t) := fun hm => by
    rcases hlet '?' hm with h | h <;> exact absurd h (by decide)
  unfold pattern_score
  rw [if_neg hne]
  simp only
  rw [if_pos hupplow, if_neg (by omega : ¬ 2 ≤ t.countP isDigit09),
    if_neg (by omega : ¬ 2 ≤ t.countP fun ch => ! isAlnumPy ch),
    if_neg hat, if_neg hus,
    if_neg (show ¬ ('@' ∈ t ∧ '_' ∈ t ∧ pyIndex t '@' < pyRindex t '_') from
      fun h => hat h.1),
    if_neg hq, if_pos (by omega : 12 ≤ t.length ∧ t.length ≤ 18)]
  simp only [Frac.toQ_add, Frac.toQ_sci_neg, Frac.toQ_zero]
  norm_num

theorem pattern_score_len8_le (u : List Char) (hlen : u.length = 8) :
    (pattern_score u).toQ ≤ 8.4 := by
  have hne : u ≠ [] := by intro h; rw [h] at hlen; simp at hlen
  unfold pattern_score
  rw [if_neg hne]
  simp only
  rw [if_neg (by omega : ¬ (12 ≤ u.length ∧ u.length ≤ 18)),
    if_neg (by omega : ¬ 18 < u.length), if_neg (by omega : ¬ u.length < 8)]
  split_ifs <;>
    simp only [Frac.toQ_add, Frac.toQ_sci_neg, Frac.toQ_zero] <;> norm_num

/-- C7.  `pattern_score` of the canonical token strictly exceeds the
score of every 16-character purely alphabetic string and of every
8-character string with the token's character-class mix. -/
theorem claim_C7 :
    (∀ t : List Char, t.length = 16 →
      (∀ c ∈ t, isUpperAZ c = true ∨ isLowerAZ c = true) →
      (pattern_score t).toQ < (pattern_score TOKEN).toQ) ∧
    (∀ u : List Char, u.length = 8 →
      3 ≤ u.countP (fun c => isUpperAZ c || isLowerAZ c) →
      2 ≤ u.countP isDigit09 →
      2 ≤ u.countP (fun c => ! isAlnumPy c) →
      '@' ∈ u → '_' ∈ u → '?' ∈ u → pyIndex u '@' < pyRindex u '_' →
      (pattern_score u).toQ < (pattern_score TOKEN).toQ) := by
  constructor
  · intro t hlen hlet
    rw [pattern_score_all_letters t hlen hlet, pattern_score_token]
    norm_num
  · intro u hlen _ _ _ _ _ _ _
    have := pattern_score_len8_le u hlen
    rw [pattern_score_token]
    linarith

/-- Witness for C7 at the concrete strings `SAMPLE16` and `MIX8`. -/
theorem claim_C7_witness :
    (pattern_score SAMPLE16).toQ < (pattern_score TOKEN).toQ ∧
    (pattern_score MIX8).toQ < (pattern_score TOKEN).toQ :=
  ⟨claim_C7.1 SAMPLE16 (by decide) (by decide),
   claim_C7.2 MIX8 (by decide) (by decide) (by decide) (by decide)
     (by decide) (by decide) (by decide) (by decide)⟩

/-! ## C2: consensus on the three synthetic candidates -/

/-- C2.  On the three synthetic candidates reading
`"T3*1-B?+AcJ3@_9L"`, `"T3*1-B?+AcJ3@_9L"` and `"T31-B7+AcJ3@_9L"`
(single detections, confidence 0.8 each), `select_consensus_candidate`
returns the majority token, the noisy variant's divergent characters
corrected by position voting.  Checked by running the embedded pipeline. -/
theorem claim_C2 :
    (select_consensus_candidate C2_CANDS).1 = TOKEN ∧
    Frac.beq (select_consensus_candidate C2_CANDS).2 0.8 = true := by
  decide

/-! ## C8: `order_quad_points` and input order -/

theorem pyArgminBy_mem {α : Type} (f : α → Frac) (x : α) (xs : List α) :
    pyArgminBy f x xs ∈ x :: xs := by
  induction xs generalizing x with
  | nil => simp [pyArgminBy]
  | cons y ys ih =>
    rw [show pyArgminBy f x (y :: ys) =
      pyArgminBy f (if Frac.blt (f y) (f x) then y else x) ys from rfl]
    have := ih (if Frac.blt (f y) (f x) then y else x)
    rcases List.mem_cons.mp this with h | h
    · rw [h]
      split <;> simp
    · exact List.mem_cons_of_mem _ (List.mem_cons_of_mem _ h)

theorem pyArgminBy_le {α : Type} (f : α → Frac) (x : α) (xs : List α) :
    ∀ q ∈ x :: xs, (f (pyArgminBy f x xs)).toQ ≤ (f q).toQ := by
  induction xs generalizing x with
  | nil =>
    intro q hq
    rcases List.mem_singleton.mp hq with rfl
    exact le_refl _
  | cons y ys ih =>
    intro q hq
    rw [show pyArgminBy f x (y :: ys) =
      pyArgminBy f (if Frac.blt (f y) (f x) then y else x) ys from rfl]
    have hstep : (f (if Frac.blt (f y) (f x) then y else x)).toQ ≤ (f x).toQ ∧
        (f (if Frac.blt (f y) (f x) then y else x)).toQ ≤ (f y).toQ := by
      by_cases hb : Frac.blt (f y) (f x) = true
      · rw [if_pos hb]
        exact ⟨le_of_lt ((Frac.blt_iff _ _).mp hb), le_refl _⟩
      · rw [if_neg hb]
        refine ⟨le_refl _, ?_⟩
        by_contra hlt
        exact hb ((Frac.blt_iff _ _).mpr (lt_of_not_le hlt))
    rcases List.mem_cons.mp hq with rfl | hq
    · exact le_trans (ih _ _ (List.mem_cons_self _ _)) hstep.1
    rcases List.mem_cons.mp hq with rfl | hq
    · exact le_trans (ih _ _ (List.mem_cons_self _ _)) hstep.2
    · exact ih _ _ (List.mem_cons_of_mem _ hq)

theorem pyArgmaxBy_mem {α : Type} (f : α → Frac) (x : α) (xs : List α) :
    pyArgmaxBy f x xs ∈ x :: xs := by
  induction xs generalizing x with
  | nil => simp [pyArgmaxBy]
  | cons y ys ih =>
    rw [show pyArgmaxBy f x (y :: ys) =
      pyArgmaxBy f (if Frac.blt (f x) (f y) then y else x) ys from rfl]
    have := ih (if Frac.blt (f x) (f y) then y else x)
    rcases List.mem_cons.mp this with h | h
    · rw [h]
      split <;> simp
    · exact List.mem_cons_of_mem _ (List.mem_cons_of_mem _ h)

theorem pyArgmaxBy_ge {α : Type} (f : α → Frac) (x : α) (xs : List α) :
    ∀ q ∈ x :: xs, (f q).toQ ≤ (f (pyArgmaxBy f x xs)).toQ := by
  induction xs generalizing x with
  | nil =>
    intro q hq
    rcases List.mem_singleton.mp hq with rfl
    exact le_refl _
  | cons y ys ih =>
    intro q hq
    rw [show pyArgmaxBy f x (y :: ys) =
      pyArgmaxBy f (if Frac.blt (f x) (f y) then y else x) ys from rfl]
    have hstep : (f x).toQ ≤ (f (if Frac.blt (f x) (f y) then y else x)).toQ ∧
        (f y).toQ ≤ (f (if Frac.blt (f x) (f y) then y else x)).toQ := by
      by_cases hb : Frac.blt (f x) (f y) = true
      · rw [if_pos hb]
        exact ⟨le_of_lt ((Frac.blt_iff _ _).mp hb), le_refl _⟩
      · rw [if_neg hb]
        refine ⟨le_refl _, ?_⟩
        by_contra hlt
        exact hb ((Frac.blt_iff _ _).mpr (lt_of_not_le hlt))
    rcases List.mem_cons.mp hq with rfl | hq
    · exact le_trans hstep.1 (ih _ _ (List.mem_cons_self _ _))
    rcases List.mem_cons.mp hq with rfl | hq
    · exact le_trans hstep.2 (ih _ _ (List.mem_cons_self _ _))
    · exact ih _ _ (List.mem_cons_of_mem _ hq)

theorem pyArgminBy_eq_of_unique {α : Type} (f : α → Frac) (x : α) (xs : List α)
    (p : α) (hp : p ∈ x :: xs)
    (hu : ∀ q ∈ x :: xs, q ≠ p → (f p).toQ < (f q).toQ) :
    pyArgminBy f x xs = p := by
  by_cases h : pyArgminBy f x xs = p
  · exact h
  · exact absurd (pyArgminBy_le f x xs p hp)
      (not_le_of_lt (hu _ (pyArgminBy_mem f x xs) h))

theorem pyArgmaxBy_eq_of_unique {α : Type} (f : α → Frac) (x : α) (xs : List α)
    (p : α) (hp : p ∈ x :: xs)
    (hu : ∀ q ∈ x :: xs, q ≠ p → (f q).toQ < (f p).toQ) :
    pyArgmaxBy f x xs = p := by
  by_cases h : pyArgmaxBy f x xs = p
  · exact h
  · exact absurd (pyArgmaxBy_ge f x xs p hp)
      (not_le_of_lt (hu _ (pyArgmaxBy_mem f x xs) h))

/-- C8 (amended).  `order_quad_points` is invariant under permutation of
its four input points provided the extreme points of the sum/difference
rule are strictly unique; with ties, `np.argmin`/`np.argmax` select the
first index and the result depends on input order
(`claim_C8_counterexample`). -/
theorem claim_C8 (l l' : List (Frac × Frac)) (hlen : l.length = 4)
    (hperm : l.Perm l')
    (h1 : ∃ p ∈ l, ∀ q ∈ l, q ≠ p → (p.1 + p.2).toQ < (q.1 + q.2).toQ)
    (h2 : ∃ p ∈ l, ∀ q ∈ l, q ≠ p → (q.1 + q.2).toQ < (p.1 + p.2).toQ)
    (h3 : ∃ p ∈ l, ∀ q ∈ l, q ≠ p → (p.2 - p.1).toQ < (q.2 - q.1).toQ)
    (h4 : ∃ p ∈ l, ∀ q ∈ l, q ≠ p → (q.2 - q.1).toQ < (p.2 - p.1).toQ) :
    order_quad_points l = order_quad_points l' := by
  obtain ⟨ps, hps, hups⟩ := h1
  obtain ⟨qs, hqs, huqs⟩ := h2
  obtain ⟨pd, hpd, hupd⟩ := h3
  obtain ⟨qd, hqd, huqd⟩ := h4
  cases l with
  | nil => simp at hlen
  | cons x xs =>
    cases l' with
    | nil => exact absurd (hperm.symm.length_eq) (by simp)
    | cons x' xs' =>
      have oqp : ∀ (z : Frac × Frac) (zs : List (Frac × Frac)),
          order_quad_points (z :: zs) =
            [pyArgminBy (fun q => q.1 + q.2) z zs,
             pyArgminBy (fun q => q.2 - q.1) z zs,
             pyArgmaxBy (fun q => q.1 + q.2) z zs,
             pyArgmaxBy (fun q => q.2 - q.1) z zs] := fun z zs => rfl
      rw [oqp, oqp]
      rw [pyArgminBy_eq_of_unique (fun q : Frac × Frac => q.1 + q.2) x xs ps hps hups,
        pyArgminBy_eq_of_unique (fun q : Frac × Frac => q.1 + q.2) x' xs' ps
          (hperm.mem_iff.mp hps) (fun q hq => hups q (hperm.mem_iff.mpr hq)),
        pyArgmaxBy_eq_of_unique (fun q : Frac × Frac => q.1 + q.2) x xs qs hqs huqs,
        pyArgmaxBy_eq_of_unique (fun q : Frac × Frac => q.1 + q.2) x' xs' qs
          (hperm.mem_iff.mp hqs) (fun q hq => huqs q (hperm.mem_iff.mpr hq)),
        pyArgminBy_eq_of_unique (fun q : Frac × Frac => q.2 - q.1) x xs pd hpd hupd,
        pyArgminBy_eq_of_unique (fun q : Frac × Frac => q.2 - q.1) x' xs' pd
          (hperm.mem_iff.mp hpd) (fun q hq => hupd q (hperm.mem_iff.mpr hq)),
        pyArgmaxBy_eq_of_unique (fun q : Frac × Frac => q.2 - q.1) x xs qd hqd huqd,
        pyArgmaxBy_eq_of_unique (fun q : Frac × Frac => q.2 - q.1) x' xs' qd
          (hperm.mem_iff.mp hqd) (fun q hq => huqd q (hperm.mem_iff.mpr hq))]

/-- C8 counterexample: the claim as stated (invariance for every list of
4 points and every permutation) fails when coordinate sums tie — swapping
the first two points of `[(0,2), (1,1), (2,0), (0,0)]` changes the
output. -/
theorem claim_C8_counterexample :
    C8_PTS.Perm C8_PTS_SWAP ∧
    order_quad_points C8_PTS ≠ order_quad_points C8_PTS_SWAP :=
  ⟨List.Perm.swap _ _ _, by decide⟩

/-- Witness for C8: a concrete rectangle with strictly unique extreme
points, reversed. -/
theorem claim_C8_witness :
    order_quad_points [((0 : Frac), (0 : Frac)), (100, 0), (100, 20), (0, 20)] =
      order_quad_points [((0 : Frac), (20 : Frac)), (100, 20), (100, 0), (0, 0)] :=
  claim_C8 _ _ (by decide) (by decide)
    ⟨(0, 0), by decide, by
      intro q hq hne
      fin_cases hq <;>
        first
          | exact absurd rfl hne
          | exact (Frac.blt_iff _ _).mp (by decide)⟩
    ⟨(100, 20), by decide, by
      intro q hq hne
      fin_cases hq <;>
        first
          | exact absurd rfl hne
          | exact (Frac.blt_iff _ _).mp (by decide)⟩
    ⟨(100, 0), by decide, by
      intro q hq hne
      fin_cases hq <;>
        first
          | exact absurd rfl hne
          | exact (Frac.blt_iff _ _).mp (by decide)⟩
    ⟨(0, 20), by decide, by
      intro q hq hne
      fin_cases hq <;>
        first
          | exact absurd rfl hne
          | exact (Frac.blt_iff _ _).mp (by decide)⟩

/-! ## C9: `prioritize_rois` promotes the widest candidate -/

theorem insertDescBy_perm {α : Type} (key : α → Frac) (x : α) (l : List α) :
    (insertDescBy key x l).Perm (x :: l) := by
  induction l with
  | nil => exact List.Perm.refl _
  | cons y ys ih =>
    rw [insertDescBy]
    split
    · exact List.Perm.refl _
    · exact (List.Perm.cons y ih).trans (List.Perm.swap x y ys)

theorem pySortDescBy_foldl_perm {α : Type} (key : α → Frac) (l acc : List α) :
    (l.foldl (fun acc x => insertDescBy key x acc) acc).Perm (l ++ acc) := by
  induction l generalizing acc with
  | nil => simp
  | cons x xs ih =>
    rw [List.foldl_cons]
    refine (ih (insertDescBy key x acc)).trans ?_
    refine (List.Perm.append_left xs (insertDescBy_perm key x acc)).trans ?_
    exact List.perm_middle

theorem pySortDescBy_perm {α : Type} (key : α → Frac) (l : List α) :
    (pySortDescBy key l).Perm l := by
  have := pySortDescBy_foldl_perm key l []
  simpa [pySortDescBy] using this

theorem pyMaxByInt_mem {α : Type} (key : α → Int) (x : α) (xs : List α) :
    pyMaxByInt key x xs ∈ x :: xs := by
  induction xs generalizing x with
  | nil => simp [pyMaxByInt]
  | cons y ys ih =>
    rw [show pyMaxByInt key x (y :: ys) =
      pyMaxByInt key (if key x < key y then y else x) ys from rfl]
    have := ih (if key x < key y then y else x)
    rcases List.mem_cons.mp this with h | h
    · rw [h]
      split <;> simp
    · exact List.mem_cons_of_mem _ (List.mem_cons_of_mem _ h)

theorem pyMaxByInt_ge {α : Type} (key : α → Int) (x : α) (xs : List α) :
    ∀ q ∈ x :: xs, key q ≤ key (pyMaxByInt key x xs) := by
  induction xs generalizing x with
  | nil =>
    intro q hq
    rcases List.mem_singleton.mp hq with rfl
    exact le_refl _
  | cons y ys ih =>
    intro q hq
    rw [show pyMaxByInt key x (y :: ys) =
      pyMaxByInt key (if key x < key y then y else x) ys from rfl]
    have hstep : key x ≤ key (if key x < key y then y else x) ∧
        key y ≤ key (if key x < key y then y else x) := by
      split
      · rename_i hxy
        exact ⟨le_of_lt hxy, le_refl _⟩
      · rename_i hxy
        exact ⟨le_refl _, le_of_not_lt hxy⟩
    rcases List.mem_cons.mp hq with rfl | hq
    · exact le_trans hstep.1 (ih _ _ (List.mem_cons_self _ _))
    rcases List.mem_cons.mp hq with rfl | hq
    · exact le_trans hstep.2 (ih _ _ (List.mem_cons_self _ _))
    · exact ih _ _ (List.mem_cons_of_mem _ hq)

/-- C9.  For every non-empty ROI list and image shape, some ROI of
maximal width `x1 - x0` among the input appears at index 0 or 1 of
`prioritize_rois`' output. -/
theorem claim_C9 (rois : List Roi) (h w : Int) (hne : rois ≠ []) :
    ∃ r, r ∈ (prioritize_rois rois h w).take 2 ∧ r ∈ rois ∧
      ∀ q ∈ rois, q.2.2.1 - q.1 ≤ r.2.2.1 - r.1 := by
  unfold prioritize_rois
  rw [if_neg (by simpa using hne)]
  have hperm := pySortDescBy_perm (fun r => roi_priority_score r h w) rois
  cases hord : pySortDescBy (fun r => roi_priority_score r h w) rois with
  | nil =>
    rw [hord] at hperm
    exact absurd hperm.symm.eq_nil hne
  | cons r rs =>
    rw [hord] at hperm
    have hmem : pyMaxByInt (fun q => q.2.2.1 - q.1) r rs ∈ rois :=
      hperm.mem_iff.mp (pyMaxByInt_mem _ r rs)
    have hge : ∀ q ∈ rois,
        q.2.2.1 - q.1 ≤ (pyMaxByInt (fun q => q.2.2.1 - q.1) r rs).2.2.1 -
          (pyMaxByInt (fun q => q.2.2.1 - q.1) r rs).1 := by
      intro q hq
      exact pyMaxByInt_ge (fun q => q.2.2.1 - q.1) r rs q (hperm.mem_iff.mpr hq)
    refine ⟨pyMaxByInt (fun q => q.2.2.1 - q.1) r rs, ?_, hmem, hge⟩
    show _ ∈ List.take 2 (if r = pyMaxByInt (fun q => q.2.2.1 - q.1) r rs
      then r :: rs
      else r :: pyMaxByInt (fun q => q.2.2.1 - q.1) r rs ::
        rs.filter (fun x => decide (x ≠ pyMaxByInt (fun q => q.2.2.1 - q.1) r rs)))
    by_cases heq : r = pyMaxByInt (fun q => q.2.2.1 - q.1) r rs
    · rw [if_pos heq, ← heq]
      simp
    · rw [if_neg heq]
      simp

/-- Witness for C9 at a concrete two-ROI list. -/
theorem claim_C9_witness :
    ∃ r, r ∈ (prioritize_rois ([(0, 0, 4, 4), (0, 0, 9, 2)] : List Roi) 10 10).take 2 ∧
      r ∈ ([(0, 0, 4, 4), (0, 0, 9, 2)] : List Roi) ∧
      ∀ q ∈ ([(0, 0, 4, 4), (0, 0, 9, 2)] : List Roi),
        q.2.2.1 - q.1 ≤ r.2.2.1 - r.1 := by
  exact claim_C9 ([(0, 0, 4, 4), (0, 0, 9, 2)] : List Roi) 10 10 (by decide)

/-! ## C6: idempotence of `normalize_ocr_text` -/

theorem replaceDunder_length_le (t : List Char) :
    (replaceDunder t).length ≤ t.length := by
  induction t using replaceDunder.induct with
  | case1 => simp [replaceDunder]
  | case2 c => simp [replaceDunder]
  | case3 c1 c2 rest h ih =>
    rw [replaceDunder, if_pos h]
    simp only [List.length_cons]
    omega
  | case4 c1 c2 rest h ih =>
    rw [replaceDunder, if_neg h]
    simp only [List.length_cons] at ih ⊢
    omega

theorem replaceDunder_length_lt (t : List Char) (h : hasDunder t = true) :
    (replaceDunder t).length < t.length := by
  induction t using replaceDunder.induct with
  | case1 => simp [hasDunder] at h
  | case2 c => simp [hasDunder] at h
  | case3 c1 c2 rest hc ih =>
    rw [replaceDunder, if_pos hc]
    have := replaceDunder_length_le rest
    simp only [List.length_cons]
    omega
  | case4 c1 c2 rest hc ih =>
    rw [replaceDunder, if_neg hc]
    have hd : hasDunder (c2 :: rest) = true := by
      rw [hasDunder] at h
      rcases (Bool.or_eq_true _ _).mp h with h' | h'
      · rw [Bool.and_eq_true, decide_eq_true_iff, decide_eq_true_iff] at h'
        exact absurd h' hc
      · exact h'
    have := ih hd
    simp only [List.length_cons] at this ⊢
    omega

theorem replaceDunder_subset (t : List Char) :
    ∀ c ∈ replaceDunder t, c ∈ t := by
  induction t using replaceDunder.induct with
  | case1 => simp [replaceDunder]
  | case2 c => simp [replaceDunder]
  | case3 c1 c2 rest hc ih =>
    rw [replaceDunder, if_pos hc]
    intro c hcm
    rcases List.mem_cons.mp hcm with rfl | hcm
    · simp [hc.1]
    · simp [ih c hcm]
  | case4 c1 c2 rest hc ih =>
    rw [replaceDunder, if_neg hc]
    intro c hcm
    rcases List.mem_cons.mp hcm with rfl | hcm
    · simp
    · simp [List.mem_cons.mp (ih c hcm)]

theorem replaceDunder_ne_nil (t : List Char) (h : t ≠ []) :
    replaceDunder t ≠ [] := by
  induction t using replaceDunder.induct with
  | case1 => exact absurd rfl h
  | case2 c => simp [replaceDunder]
  | case3 c1 c2 rest hc ih => rw [replaceDunder, if_pos hc]; simp
  | case4 c1 c2 rest hc ih => rw [replaceDunder, if_neg hc]; simp

theorem hasDunder_short (t : List Char) (h : t.length ≤ 1) :
    hasDunder t = false := by
  match t with
  | [] => rfl
  | [c] => rfl
  | c1 :: c2 :: rest => simp at h

theorem collapseDunder_of_no_dunder (fuel : Nat) (t : List Char)
    (h : hasDunder t = false) : collapseDunder fuel t = t := by
  cases fuel with
  | zero => rfl
  | succ f => rw [collapseDunder, h]; simp

theorem collapseDunder_subset (fuel : Nat) :
    ∀ (t : List Char), ∀ c ∈ collapseDunder fuel t, c ∈ t := by
  induction fuel with
  | zero => intro t c hc; exact hc
  | succ f ih =>
    intro t c hc
    rw [collapseDunder] at hc
    by_cases hd : hasDunder t = true
    · rw [hd] at hc
      simp only [if_pos rfl] at hc
      exact replaceDunder_subset t c (ih (replaceDunder t) c hc)
    · rw [Bool.not_eq_true] at hd
      rw [hd] at hc
      simpa using hc

theorem collapseDunder_ne_nil (fuel : Nat) :
    ∀ (t : List Char), t ≠ [] → collapseDunder fuel t ≠ [] := by
  induction fuel with
  | zero => intro t ht; exact ht
  | succ f ih =>
    intro t ht
    rw [collapseDunder]
    by_cases hd : hasDunder t = true
    · rw [hd]
      simp only [if_pos rfl]
      exact ih _ (replaceDunder_ne_nil t ht)
    · rw [Bool.not_eq_true] at hd
      rw [hd]
      simpa using ht

theorem collapseDunder_no_dunder (fuel : Nat) :
    ∀ (t : List Char), t.length ≤ fuel + 1 →
      hasDunder (collapseDunder fuel t) = false := by
  induction fuel with
  | zero =>
    intro t ht
    exact hasDunder_short t ht
  | succ f ih =>
    intro t ht
    rw [collapseDunder]
    by_cases hd : hasDunder t = true
    · rw [hd]
      simp only [if_pos rfl]
      refine ih _ ?_
      have := replaceDunder_length_lt t hd
      omega
    · rw [Bool.not_eq_true] at hd
      rw [hd]
      simpa using hd

theorem sanitize_text_mem (s : List Char) :
    ∀ c ∈ sanitize_text s, c ∈ ALLOWLIST := by
  unfold sanitize_text
  split
  · simp
  · intro c hc
    exact of_decide_eq_true (List.mem_filter.mp hc).2

theorem sanitize_text_eq_self (r : List Char) (h : ∀ c ∈ r, c ∈ ALLOWLIST) :
    sanitize_text r = r := by
  unfold sanitize_text
  split
  · rename_i he
    exact he.symm
  · exact List.filter_eq_self.mpr (fun c hc => decide_eq_true (h c hc))

/-- C6.  `normalize_ocr_text` is idempotent. -/
theorem claim_C6 (s : List Char) :
    normalize_ocr_text (normalize_ocr_text s) = normalize_ocr_text s := by
  by_cases hs : sanitize_text s = []
  · have h1 : normalize_ocr_text s = [] := by
      simp only [normalize_ocr_text, hs]
      rfl
    rw [h1]
    rfl
  · have hstep : normalize_ocr_text s =
        collapseDunder (sanitize_text s).length (sanitize_text s) := by
      simp only [normalize_ocr_text, if_neg hs]
    have hall : ∀ c ∈ normalize_ocr_text s, c ∈ ALLOWLIST := by
      intro c hc
      rw [hstep] at hc
      exact sanitize_text_mem s c (collapseDunder_subset _ _ c hc)
    have hne : normalize_ocr_text s ≠ [] := by
      rw [hstep]
      exact collapseDunder_ne_nil _ _ hs
    have hnd : hasDunder (normalize_ocr_text s) = false := by
      rw [hstep]
      exact collapseDunder_no_dunder _ _ (by omega)
    rw [normalize_ocr_text]
    simp only [sanitize_text_eq_self _ hall, if_neg hne]
    exact collapseDunder_of_no_dunder _ _ hnd

/-! ## C3: frame driver emission -/

/-- C3.  For every decoded frame (modelled by its recognition candidates,
always non-empty in the driver), the driver writes the
`FINAL<TAB>conf<TAB>text` line exactly when the final consensus token is
non-empty, always followed by exactly one blank line ending the unit;
and the clipped-ROI confidence is the unclipped one multiplied by 0.70. -/
theorem claim_C3 (candidates : List (List Detection × List Char)) (clipped : Bool)
    (hne : candidates ≠ []) :
    (emit_frame_result candidates clipped =
      if frame_token candidates = [] then [[]]
      else [final_line (frame_conf candidates clipped) (frame_token candidates), []]) ∧
    (frame_conf candidates true).toQ = (frame_conf candidates false).toQ * 0.70 := by
  obtain ⟨c, cs, rfl⟩ : ∃ c cs, candidates = c :: cs := by
    cases candidates with
    | nil => exact absurd rfl hne
    | cons c cs => exact ⟨c, cs, rfl⟩
  have hmax : ∃ best, pyMaxByFrac (fun c => score_result c.1 c.2) (c :: cs) = some best :=
    ⟨_, rfl⟩
  obtain ⟨best, hbest⟩ := hmax
  constructor
  · simp only [emit_frame_result, frame_token, frame_conf, hbest, List.isEmpty_iff]
    by_cases h0 : (if (select_consensus_candidate (c :: cs)).1 = [] then best.2
        else (select_consensus_candidate (c :: cs)).1) = []
    · simp [h0]
    · rw [if_neg h0, if_neg h0]
  · simp only [frame_conf, hbest, List.isEmpty_iff]
    by_cases hX : (select_consensus_candidate (c :: cs)).1 = [] <;>
      simp [hX, Frac.toQ_mul] <;> norm_num [Frac.toQ_sci_neg]

/-- Witness for C3 on a one-candidate frame with a clipped ROI. -/
theorem claim_C3_witness :
    (emit_frame_result CANDS1 true =
      if frame_token CANDS1 = [] then [[]]
      else [final_line (frame_conf CANDS1 true) (frame_token CANDS1), []]) ∧
    (frame_conf CANDS1 true).toQ = (frame_conf CANDS1 false).toQ * 0.70 :=
  claim_C3 CANDS1 true (by simp [CANDS1])

/-! ## C5: idempotence of `best_text_window` -/

theorem btwFold_inv : ∀ (ws : List (List Char)) (b : List Char),
    ((btwFold ws b (btwScore b)).2 = btwScore (btwFold ws b (btwScore b)).1) ∧
    ((btwScore b).toQ ≤ (btwFold ws b (btwScore b)).2.toQ) ∧
    ((btwFold ws b (btwScore b)).1 = b ∨ (btwFold ws b (btwScore b)).1 ∈ ws) ∧
    (∀ w ∈ ws, (btwScore w).toQ ≤
      (btwFold ws b (btwScore b)).2.toQ + ((1e-6 : Frac)).toQ) := by
  intro ws
  induction ws with
  | nil =>
    intro b
    exact ⟨rfl, le_refl _, Or.inl rfl, by simp⟩
  | cons w ws ih =>
    intro b
    have heps : (0 : ℚ) ≤ ((1e-6 : Frac)).toQ := by norm_num [Frac.toQ_sci_neg]
    by_cases hblt : Frac.blt (btwScore b + 1e-6) (btwScore w) = true
    · have hlt : (btwScore b).toQ + ((1e-6 : Frac)).toQ < (btwScore w).toQ := by
        have := (Frac.blt_iff _ _).mp hblt
        rwa [Frac.toQ_add] at this
      have hred : btwFold (w :: ws) b (btwScore b) = btwFold ws w (btwScore w) := by
        rw [btwFold, if_pos hblt]
      rw [hred]
      obtain ⟨h1, h2, h3, h4⟩ := ih w
      refine ⟨h1, ?_, ?_, ?_⟩
      · calc (btwScore b).toQ ≤ (btwScore b).toQ + ((1e-6 : Frac)).toQ := by linarith
          _ ≤ (btwScore w).toQ := le_of_lt hlt
          _ ≤ _ := h2
      · rcases h3 with h | h
        · exact Or.inr (by rw [h]; exact List.mem_cons_self _ _)
        · exact Or.inr (List.mem_cons_of_mem _ h)
      · intro w' hw'
        rcases List.mem_cons.mp hw' with rfl | hw'
        · calc (btwScore w').toQ ≤ (btwFold ws w' (btwScore w')).2.toQ := h2
            _ ≤ _ := by linarith
        · exact h4 w' hw'
    · have hle : (btwScore w).toQ ≤ (btwScore b).toQ + ((1e-6 : Frac)).toQ := by
        have : ¬ ((btwScore b + 1e-6).toQ < (btwScore w).toQ) := fun hc =>
          hblt ((Frac.blt_iff _ _).mpr hc)
        rw [Frac.toQ_add] at this
        exact le_of_not_lt this
      have hred : btwFold (w :: ws) b (btwScore b) = btwFold ws b (btwScore b) := by
        rw [btwFold, if_neg hblt]
      rw [hred]
      obtain ⟨h1, h2, h3, h4⟩ := ih b
      refine ⟨h1, h2, ?_, ?_⟩
      · rcases h3 with h | h
        · exact Or.inl h
        · exact Or.inr (List.mem_cons_of_mem _ h)
      · intro w' hw'
        rcases List.mem_cons.mp hw' with rfl | hw'
        · calc (btwScore w').toQ ≤ (btwScore b).toQ + ((1e-6 : Frac)).toQ := hle
            _ ≤ _ := by linarith
        · exact h4 w' hw'

theorem btwFold_stable : ∀ (ws : List (List Char)) (b : List Char) (s : Frac),
    (∀ w ∈ ws, (btwScore w).toQ ≤ s.toQ + ((1e-6 : Frac)).toQ) →
    btwFold ws b s = (b, s) := by
  intro ws
  induction ws with
  | nil => intro b s _; rfl
  | cons w ws ih =>
    intro b s hb
    have hw := hb w (List.mem_cons_self _ _)
    have hblt : Frac.blt (s + 1e-6) (btwScore w) = false := by
      rw [← Bool.not_eq_true, Frac.blt_iff, Frac.toQ_add]
      exact not_lt_of_le hw
    rw [btwFold, hblt]
    simp only [Bool.false_eq_true, if_false]
    exact ih b s (fun w' hw' => hb w' (List.mem_cons_of_mem _ hw'))

theorem btw_windows_mem_iff (t w : List Char) :
    w ∈ btw_windows t ↔ ∃ L i, (if 12 ≤ t.length then 12 else t.length) ≤ L ∧
      L ≤ min 18 t.length ∧ i + L ≤ t.length ∧ w = (t.drop i).take L := by
  unfold btw_windows
  simp only [List.mem_flatMap, List.mem_map, List.mem_range'_1, List.mem_range]
  constructor
  · rintro ⟨L, ⟨hL1, hL2⟩, i, hi, rfl⟩
    refine ⟨L, i, hL1, ?_, ?_, rfl⟩
    · by_cases h12 : 12 ≤ t.length
      · rw [if_pos h12] at hL1 hL2
        omega
      · rw [if_neg h12] at hL1 hL2
        omega
    · by_cases h12 : 12 ≤ t.length
      · rw [if_pos h12] at hL1 hL2
        omega
      · rw [if_neg h12] at hL1 hL2
        omega
  · rintro ⟨L, i, h1, h2, h3, rfl⟩
    refine ⟨L, ⟨h1, ?_⟩, i, ?_, rfl⟩
    · by_cases h12 : 12 ≤ t.length
      · rw [if_pos h12]
        omega
      · rw [if_neg h12]
        omega
    · omega

theorem btw_windows_length (t w : List Char) (hw : w ∈ btw_windows t) :
    (if 12 ≤ t.length then 12 else t.length) ≤ w.length ∧
      w.length ≤ min 18 t.length := by
  obtain ⟨L, i, h1, h2, h3, rfl⟩ := (btw_windows_mem_iff t w).mp hw
  have : ((t.drop i).take L).length = L := by
    rw [List.length_take, List.length_drop]
    omega
  rw [this]
  exact ⟨h1, h2⟩

theorem btw_windows_chars (t w : List Char) (hw : w ∈ btw_windows t) :
    ∀ c ∈ w, c ∈ t := by
  obtain ⟨L, i, _, _, _, rfl⟩ := (btw_windows_mem_iff t w).mp hw
  intro c hc
  exact List.mem_of_mem_drop (List.mem_of_mem_take hc)

theorem btw_windows_ne_nil (t w : List Char) (ht : t ≠ [])
    (hw : w ∈ btw_windows t) : w ≠ [] := by
  have hlen := (btw_windows_length t w hw).1
  have htl : 1 ≤ t.length := List.length_pos.mpr ht
  intro hnil
  rw [hnil] at hlen
  simp only [List.length_nil] at hlen
  by_cases h12 : 12 ≤ t.length
  · rw [if_pos h12] at hlen
    omega
  · rw [if_neg h12] at hlen
    omega

theorem btw_windows_sub (t r : List Char) (hr : r ∈ btw_windows t) :
    ∀ w ∈ btw_windows r, w ∈ btw_windows t := by
  obtain ⟨L, i, h1, h2, h3, rfl⟩ := (btw_windows_mem_iff t r).mp hr
  have hrlen : ((t.drop i).take L).length = L := by
    rw [List.length_take, List.length_drop]
    omega
  intro w hw
  obtain ⟨l, a, g1, g2, g3, rfl⟩ := (btw_windows_mem_iff _ w).mp hw
  rw [hrlen] at g1 g2 g3
  rw [btw_windows_mem_iff]
  refine ⟨l, i + a, ?_, ?_, by omega, ?_⟩
  · by_cases h12 : 12 ≤ t.length
    · rw [if_pos h12]
      rw [if_pos h12] at h1
      by_cases hL12 : 12 ≤ L
      · rw [if_pos hL12] at g1
        omega
      · omega
    · rw [if_neg h12]
      rw [if_neg h12] at h1
      by_cases hL12 : 12 ≤ L
      · omega
      · rw [if_neg hL12] at g1
        omega
  · omega
  · rw [List.drop_take, List.drop_drop, List.take_take]
    congr 1
    omega

/-- C5.  `best_text_window` is idempotent. -/
theorem claim_C5 (s : List Char) :
    best_text_window (best_text_window s) = best_text_window s := by
  by_cases hs : sanitize_text s = []
  · have h1 : best_text_window s = [] := by
      simp only [best_text_window, hs]
      rfl
    rw [h1]
    rfl
  · have hbtw : best_text_window s =
        (btwFold (btw_windows (sanitize_text s)) (sanitize_text s)
          (btwScore (sanitize_text s))).1 := by
      simp only [best_text_window, if_neg hs]
    obtain ⟨h1, h2, h3, h4⟩ := btwFold_inv (btw_windows (sanitize_text s)) (sanitize_text s)
    have hchars : ∀ c ∈ best_text_window s, c ∈ ALLOWLIST := by
      intro c hc
      rw [hbtw] at hc
      rcases h3 with hcase | hcase
      · rw [hcase] at hc
        exact sanitize_text_mem s c hc
      · exact sanitize_text_mem s c (btw_windows_chars _ _ hcase c hc)
    have hne : best_text_window s ≠ [] := by
      rw [hbtw]
      rcases h3 with hcase | hcase
      · rw [hcase]
        exact hs
      · exact btw_windows_ne_nil _ _ hs hcase
    have hbound : ∀ w ∈ btw_windows (best_text_window s),
        (btwScore w).toQ ≤ (btwScore (best_text_window s)).toQ + ((1e-6 : Frac)).toQ := by
      intro w hw
      have hscore : (btwFold (btw_windows (sanitize_text s)) (sanitize_text s)
          (btwScore (sanitize_text s))).2 = btwScore (best_text_window s) := by
        rw [hbtw]
        exact h1
      rcases h3 with hcase | hcase
      · rw [hbtw, hcase] at hw ⊢
        have := h4 w hw
        rw [hscore, hbtw, hcase] at this
        exact this
      · have hw' : w ∈ btw_windows (sanitize_text s) :=
          btw_windows_sub (sanitize_text s) (best_text_window s)
            (by rw [hbtw]; exact hcase) w hw
        have := h4 w hw'
        rw [hscore] at this
        exact this
    have hsan : sanitize_text (best_text_window s) = best_text_window s :=
      sanitize_text_eq_self _ hchars
    conv_lhs => rw [best_text_window]
    simp only [hsan, if_neg hne]
    rw [btwFold_stable _ _ _ hbound]

/-! ## C1: `bounded_levenshtein`

The unbounded reference is `trueLevenshtein` (Mathlib's unit-cost
`levenshtein`, defined by peeling list heads).  The Python loop fills the
prefix-to-prefix DP table, extending both strings at the end, so the
workhorse below is the dual recurrence for `u ++ [x]` vs `v ++ [y]`. -/

theorem tl_nil (v : List Char) : trueLevenshtein [] v = v.length := by
  induction v with
  | nil => rfl
  | cons y ys ih =>
    unfold trueLevenshtein at ih ⊢
    rw [levenshtein_nil_cons, ih]
    simp [Levenshtein.defaultCost]
    omega

theorem tl_nil' (u : List Char) : trueLevenshtein u [] = u.length := by
  induction u with
  | nil => rfl
  | cons x xs ih =>
    unfold trueLevenshtein at ih ⊢
    rw [levenshtein_cons_nil, ih]
    simp [Levenshtein.defaultCost]
    omega

theorem tl_cons_cons (x : Char) (xs : List Char) (y : Char) (ys : List Char) :
    trueLevenshtein (x :: xs) (y :: ys) =
      min (trueLevenshtein xs (y :: ys) + 1)
        (min (trueLevenshtein (x :: xs) ys + 1)
          (trueLevenshtein xs ys + levc x y)) := by
  unfold trueLevenshtein levc
  rw [levenshtein_cons_cons]
  simp only [Levenshtein.defaultCost_delete, Levenshtein.defaultCost_insert,
    Levenshtein.defaultCost_substitute]
  omega

theorem min_grid_exchange (A1 A2 A3 A4 A5 A6 A7 A8 A9 p q : Nat) :
    min (min (A1 + 1) (min (A2 + 1) (A3 + q)) + 1)
      (min (min (A4 + 1) (min (A5 + 1) (A6 + q)) + 1)
        (min (A7 + 1) (min (A8 + 1) (A9 + q)) + p)) =
    min (min (A1 + 1) (min (A4 + 1) (A7 + p)) + 1)
      (min (min (A2 + 1) (min (A5 + 1) (A8 + p)) + 1)
        (min (A3 + 1) (min (A6 + 1) (A9 + p)) + q)) := by
  simp only [← min_add_add_right]
  simp only [Nat.add_assoc, Nat.add_comm, Nat.add_left_comm]
  ac_rfl

set_option maxHeartbeats 1000000 in
theorem tl_snoc_aux : ∀ (n : Nat) (u v : List Char), u.length + v.length ≤ n →
    ∀ (x y : Char),
    trueLevenshtein (u ++ [x]) (v ++ [y]) =
      min (trueLevenshtein u (v ++ [y]) + 1)
        (min (trueLevenshtein (u ++ [x]) v + 1)
          (trueLevenshtein u v + levc x y)) := by
  intro n
  induction n with
  | zero =>
    intro u v h x y
    have hu : u = [] := List.length_eq_zero.mp (by omega)
    have hv : v = [] := List.length_eq_zero.mp (by omega)
    subst hu hv
    simpa using tl_cons_cons x [] y []
  | succ n ih =>
    intro u v h x y
    match u, v with
    | [], [] => simpa using tl_cons_cons x [] y []
    | [], b :: v' =>
      have ih1 := ih [] v'
        (by simp only [List.length_nil, List.length_cons] at h ⊢; omega) x y
      simp only [List.nil_append] at ih1
      simp only [List.cons_append, List.nil_append]
      simp only [tl_cons_cons]
      rw [ih1]
      simp only [tl_nil, List.length_append, List.length_cons, List.length_nil]
      omega
    | a :: u', [] =>
      have ih1 := ih u' []
        (by simp only [List.length_nil, List.length_cons] at h ⊢; omega) x y
      simp only [List.append_nil, List.nil_append] at ih1
      simp only [List.cons_append, List.nil_append]
      simp only [tl_cons_cons]
      rw [ih1]
      simp only [tl_nil', List.length_append, List.length_cons, List.length_nil]
      omega
    | a :: u', b :: v' =>
      have ih1 := ih u' (b :: v')
        (by simp only [List.length_cons] at h ⊢; omega) x y
      have ih2 := ih (a :: u') v'
        (by simp only [List.length_cons] at h ⊢; omega) x y
      have ih3 := ih u' v'
        (by simp only [List.length_cons] at h; omega) x y
      simp only [List.cons_append] at ih1 ih2 ih3
      simp only [List.cons_append]
      simp only [tl_cons_cons]
      rw [ih1, ih2, ih3]
      exact min_grid_exchange _ _ _ _ _ _ _ _ _ _ _

theorem tl_snoc_snoc (u v : List Char) (x y : Char) :
    trueLevenshtein (u ++ [x]) (v ++ [y]) =
      min (trueLevenshtein u (v ++ [y]) + 1)
        (min (trueLevenshtein (u ++ [x]) v + 1)
          (trueLevenshtein u v + levc x y)) :=
  tl_snoc_aux (u.length + v.length) u v le_rfl x y

theorem foldl_min_le_init (l : List Nat) : ∀ (x : Nat), List.foldl min x l ≤ x := by
  induction l with
  | nil => intro x; exact le_rfl
  | cons y l ih => intro x; exact le_trans (ih (min x y)) (min_le_left x y)

theorem foldl_min_le_mem (l : List Nat) : ∀ (x c : Nat), c ∈ l → List.foldl min x l ≤ c := by
  induction l with
  | nil => intro x c hc; cases hc
  | cons y l ih =>
    intro x c hc
    rcases List.mem_cons.mp hc with h | h
    · subst h
      exact le_trans (foldl_min_le_init l (min x c)) (min_le_right x c)
    · exact ih (min x y) c h

theorem le_foldl_min (l : List Nat) : ∀ (x m : Nat), m ≤ x → (∀ c ∈ l, m ≤ c) →
    m ≤ List.foldl min x l := by
  induction l with
  | nil => intro x m hx _; exact hx
  | cons y l ih =>
    intro x m hx hl
    exact ih (min x y) m (le_min hx (hl y (List.mem_cons_self y l)))
      (fun c hc => hl c (List.mem_cons_of_mem y hc))

theorem foldl_min_le_getLastD : ∀ (l : List Nat) (x d : Nat),
    List.foldl min x l ≤ (x :: l).getLastD d := by
  intro l
  induction l with
  | nil => intro x d; simp [List.getLastD_cons]
  | cons y l ih =>
    intro x d
    cases l with
    | nil =>
      simp only [List.foldl_cons, List.foldl_nil, List.getLastD_cons]
      simp [List.getLastD]
    | cons z l' =>
      have h := ih (min x y) d
      simp only [List.foldl_cons, List.getLastD_cons] at h ⊢
      exact h

theorem bl_inner_ge (ca : Char) (m : Nat) : ∀ (zs : List (Char × Nat)) (left diag : Nat),
    m ≤ left → m ≤ diag → (∀ z ∈ zs, m ≤ z.2) →
    ∀ c ∈ bl_inner ca left diag zs, m ≤ c := by
  intro zs
  induction zs with
  | nil =>
    intro left diag _ _ _ c hc
    simp [bl_inner] at hc
  | cons z zs ih =>
    obtain ⟨cb, up⟩ := z
    intro left diag hleft hdiag hzs c hc
    have hup : m ≤ up := hzs (cb, up) (List.mem_cons_self _ _)
    have hcj : m ≤ min (min (up + 1) (left + 1)) (diag + if ca = cb then 0 else 1) := by
      have hd : diag ≤ diag + (if ca = cb then 0 else 1) := Nat.le_add_right _ _
      omega
    simp only [bl_inner] at hc
    rcases List.mem_cons.mp hc with h | h
    · omega
    · exact ih _ up hcj hup (fun z hz => hzs z (List.mem_cons_of_mem _ hz)) c h

theorem bl_inner_spec (ca : Char) (p : List Char) : ∀ (rest q : List Char),
    bl_inner ca (trueLevenshtein (p ++ [ca]) q) (trueLevenshtein p q)
        (rest.zip (rowFor p q rest)) =
      rowFor (p ++ [ca]) q rest := by
  intro rest
  induction rest with
  | nil => intro q; rfl
  | cons r rest ih =>
    intro q
    simp only [rowFor, List.zip_cons_cons, bl_inner]
    have hcj : min (min (trueLevenshtein p (q ++ [r]) + 1) (trueLevenshtein (p ++ [ca]) q + 1))
        (trueLevenshtein p q + if ca = r then 0 else 1) =
        trueLevenshtein (p ++ [ca]) (q ++ [r]) := by
      rw [tl_snoc_snoc p q ca r]
      simp only [levc]
      omega
    rw [hcj]
    have ih' := ih (q ++ [r])
    simp only [List.zip] at ih'
    rw [ih']

theorem rowFor_getLastD (p : List Char) : ∀ (rest q : List Char) (d : Nat),
    (trueLevenshtein p q :: rowFor p q rest).getLastD d = trueLevenshtein p (q ++ rest) := by
  intro rest
  induction rest with
  | nil => intro q d; simp [rowFor, List.getLastD_cons]
  | cons r rest ih =>
    intro q d
    simp only [rowFor]
    rw [List.getLastD_cons, ih (q ++ [r]) (trueLevenshtein p q), List.append_assoc]
    rfl

theorem rowFor_nil : ∀ (rest q : List Char),
    rowFor [] q rest = List.range' (q.length + 1) rest.length := by
  intro rest
  induction rest with
  | nil => intro q; rfl
  | cons r rest ih =>
    intro q
    simp only [rowFor, List.length_cons, List.range'_succ]
    rw [ih (q ++ [r]), tl_nil]
    simp [List.length_append]

theorem init_row (b : List Char) :
    List.range (b.length + 1) = trueLevenshtein [] [] :: rowFor [] [] b := by
  rw [rowFor_nil b [], List.range_eq_range', List.range'_succ]
  rfl

theorem RM_step (b p : List Char) (c : Char) :
    List.foldl min (trueLevenshtein p []) (rowFor p [] b) ≤
      List.foldl min (trueLevenshtein (p ++ [c]) []) (rowFor (p ++ [c]) [] b) := by
  apply le_foldl_min
  · calc List.foldl min (trueLevenshtein p []) (rowFor p [] b) ≤ trueLevenshtein p [] :=
      foldl_min_le_init _ _
    _ ≤ trueLevenshtein (p ++ [c]) [] := by
      rw [tl_nil', tl_nil']
      simp [List.length_append]
  · intro x hx
    rw [← bl_inner_spec c p b []] at hx
    refine bl_inner_ge c _ (b.zip (rowFor p [] b)) (trueLevenshtein (p ++ [c]) [])
      (trueLevenshtein p []) ?_ (foldl_min_le_init _ _) ?_ x hx
    · refine le_trans (foldl_min_le_init _ _) ?_
      rw [tl_nil', tl_nil']
      simp [List.length_append]
    · intro z hz
      obtain ⟨z1, z2⟩ := z
      exact foldl_min_le_mem _ _ _ (List.of_mem_zip hz).2

theorem RM_le_tl (b : List Char) : ∀ (s p : List Char),
    List.foldl min (trueLevenshtein p []) (rowFor p [] b) ≤ trueLevenshtein (p ++ s) b := by
  intro s
  induction s with
  | nil =>
    intro p
    rw [List.append_nil]
    have h := rowFor_getLastD p b [] 0
    rw [List.nil_append] at h
    exact le_trans (foldl_min_le_getLastD _ _ 0) (le_of_eq h)
  | cons c s ih =>
    intro p
    refine le_trans (RM_step b p c) (le_trans (ih (p ++ [c])) (le_of_eq ?_))
    rw [List.append_assoc]
    rfl

theorem tl_length_le (a : List Char) : ∀ b : List Char,
    ((a.length : Int) - b.length).natAbs ≤ trueLevenshtein a b := by
  induction a with
  | nil =>
    intro b
    rw [tl_nil]
    simp only [List.length_nil]
    omega
  | cons x xs iha =>
    intro b
    induction b with
    | nil =>
      rw [tl_nil']
      simp only [List.length_nil]
      omega
    | cons y ys ihb =>
      rw [tl_cons_cons]
      have h1 := iha (y :: ys)
      have h2 := ihb
      have h3 := iha ys
      simp only [List.length_cons] at h1 h2 h3 ⊢
      omega

theorem bl_loop_spec (b : List Char) (maxDist : Nat) : ∀ (as p : List Char),
    bl_loop b maxDist as (p.length + 1) (trueLevenshtein p [] :: rowFor p [] b) =
        trueLevenshtein (p ++ as) b ∨
      (bl_loop b maxDist as (p.length + 1) (trueLevenshtein p [] :: rowFor p [] b) =
          maxDist + 1 ∧
        maxDist < trueLevenshtein (p ++ as) b) := by
  intro as
  induction as with
  | nil =>
    intro p
    left
    simp only [bl_loop, List.append_nil]
    have h := rowFor_getLastD p b [] 0
    rw [List.nil_append] at h
    exact h
  | cons ca arest ih =>
    intro p
    have hi : p.length + 1 = trueLevenshtein (p ++ [ca]) [] := by
      rw [tl_nil']
      simp [List.length_append]
    simp only [bl_loop, List.headD_cons, List.drop_one, List.tail_cons]
    rw [hi, bl_inner_spec ca p b []]
    by_cases h : maxDist <
        List.foldl min (trueLevenshtein (p ++ [ca]) []) (rowFor (p ++ [ca]) [] b)
    · rw [if_pos h]
      right
      refine ⟨rfl, ?_⟩
      have hle := RM_le_tl b arest (p ++ [ca])
      have happ : (p ++ [ca]) ++ arest = p ++ ca :: arest := by
        rw [List.append_assoc]
        rfl
      rw [happ] at hle
      omega
    · rw [if_neg h]
      have ih' := ih (p ++ [ca])
      have hlen : (p ++ [ca]).length + 1 = trueLevenshtein (p ++ [ca]) [] + 1 := by
        rw [tl_nil']
      rw [hlen] at ih'
      have happ : (p ++ [ca]) ++ arest = p ++ ca :: arest := by
        rw [List.append_assoc]
        rfl
      rw [happ] at ih'
      exact ih'

/-- C1: `bounded_levenshtein a b d` returns the true Levenshtein distance of
`a` and `b` or the sentinel `d + 1`, the sentinel only when the true distance
exceeds `d` (so the true distance is always returned when it is at most `d`);
and it short-circuits to `d + 1` whenever the length difference exceeds `d`.
The original claim's assertion that the sentinel is returned *whenever* the
distance exceeds `d` is refuted by `claim_C1_counterexample`: the early-exit
test watches the minimum of each DP row, which can stay at most `d` all the
way to the last row even though the final distance exceeds `d`. -/
theorem claim_C1 (a b : List Char) (d : Nat) :
    (bounded_levenshtein a b d = trueLevenshtein a b ∨
      (bounded_levenshtein a b d = d + 1 ∧ d < trueLevenshtein a b)) ∧
    (d < ((a.length : Int) - (b.length : Int)).natAbs →
      bounded_levenshtein a b d = d + 1) := by
  constructor
  · unfold bounded_levenshtein
    by_cases hd : d < ((a.length : Int) - (b.length : Int)).natAbs
    · rw [if_pos hd]
      right
      refine ⟨rfl, ?_⟩
      have h := tl_length_le a b
      omega
    · rw [if_neg hd, init_row b]
      have hmain := bl_loop_spec b d a []
      simp only [List.length_nil, Nat.zero_add, List.nil_append] at hmain
      exact hmain
  · intro hd
    unfold bounded_levenshtein
    rw [if_pos hd]

/-- C1 counterexample: with `max_dist = 2`, the strings "aabbbb" and "bbbbcc"
have true distance 4 > 2, yet `bounded_levenshtein` returns 4, not the
sentinel 3: no intermediate DP row has minimum above 2, so the early exit
never fires. -/
theorem claim_C1_counterexample :
    2 < trueLevenshtein CE_A CE_B ∧ bounded_levenshtein CE_A CE_B 2 ≠ 2 + 1 := by
  decide

/-- C1 witness: the amended statement evaluated at concrete inputs. -/
theorem claim_C1_witness :
    ((bounded_levenshtein CE_A CE_B 5 = trueLevenshtein CE_A CE_B ∨
      (bounded_levenshtein CE_A CE_B 5 = 5 + 1 ∧ 5 < trueLevenshtein CE_A CE_B)) ∧
     bounded_levenshtein TOKEN CE_A 3 = 3 + 1) :=
  ⟨(claim_C1 CE_A CE_B 5).1, (claim_C1 TOKEN CE_A 3).2 (by decide)⟩
